import Mathlib

set_option maxHeartbeats 1000000

/-!
Shallow embedding of the `.env` parse/format engine of
`src/commands/envset.ts`.  JavaScript strings are modelled as `List Char`;
`undefined`-able parameters become `Option`; the insertion-ordered
JavaScript `Map` becomes an association list with `Map.set` replacing in
place and appending fresh keys at the end.
-/

/-- Whitespace characters removed by `String.prototype.trim` for the ASCII
range occurring in `.env` files. -/
def isWs (c : Char) : Bool :=
  c == ' ' || c == '\t' || c == '\n' || c == '\r'

/-- Model of `line.trim()`: drop whitespace from both ends. -/
def trimL (s : List Char) : List Char :=
  ((s.dropWhile isWs).reverse.dropWhile isWs).reverse

/-- Model of `content.split('\n')`: split on every newline, keeping empty
segments (so a trailing newline yields a final empty line). -/
def splitNl : List Char → List (List Char)
  | [] => [[]]
  | c :: cs =>
    if c = '\n' then [] :: splitNl cs
    else
      match splitNl cs with
      | [] => [[c]]
      | l :: ls => (c :: l) :: ls

/-- Model of `lines.join('\n')`. -/
def joinNl : List (List Char) → List Char
  | [] => []
  | [l] => l
  | l :: l2 :: ls => l ++ '\n' :: joinNl (l2 :: ls)

/-- Worker for the regex `^([^=#]+?)=(.*)$`: accumulate key characters
(no `=`, no `#`) up to the first `=`; fail on `#` before it, on a missing
`=`, and on an empty key. -/
def scanKey : List Char → List Char → Option (List Char × List Char)
  | _, [] => none
  | acc, c :: cs =>
    if c = '=' then
      if acc = [] then none else some (acc.reverse, cs)
    else if c = '#' then none
    else scanKey (c :: acc) cs

/-- Model of `trimmedLine.match(/^([^=#]+?)=(.*)$/)`, returning the two
capture groups on success. -/
def matchKV (s : List Char) : Option (List Char × List Char) :=
  scanKey [] s

/-- Model of `value.startsWith(q) && value.endsWith(q)`. -/
def quoteWrapped (q : Char) (v : List Char) : Bool :=
  v.head? == some q && v.getLast? == some q

/-- The single-quote character, code point 39. -/
def singleQuote : Char := Char.ofNat 39

/-- Model of the quote-stripping step of the parser: if the value is
wrapped in double or single quotes, remove one layer (`value.slice(1, -1)`). -/
def stripQuotes (v : List Char) : List Char :=
  if quoteWrapped '"' v || quoteWrapped singleQuote v then (v.drop 1).dropLast else v

/-- Model of `value.replace(/"/g, '\\"')`. -/
def escapeQuotes : List Char → List Char
  | [] => []
  | c :: cs => (if c = '"' then ['\\', '"'] else [c]) ++ escapeQuotes cs

/-- The condition of `escapeValue`: the value contains a space, `=` or `#`. -/
def needsQuote (v : List Char) : Prop :=
  ' ' ∈ v ∨ '=' ∈ v ∨ '#' ∈ v

instance (v : List Char) : Decidable (needsQuote v) := by
  unfold needsQuote; infer_instance

/-- Model of `escapeValue`: wrap in double quotes, escaping inner double
quotes, exactly when the value contains a space, `=` or `#`. -/
def escapeValue (v : List Char) : List Char :=
  if needsQuote v then '"' :: (escapeQuotes v ++ ['"']) else v

example : escapeValue "hello world".data = "\"hello world\"".data := by decide
example : escapeValue "simple".data = "simple".data := by decide
example : splitNl "A=1\n".data = ["A=1".data, []] := by decide
example : matchKV "A=1".data = some ("A".data, "1".data) := by decide
example : stripQuotes "\"x\"".data = "x".data := by decide
example : stripQuotes "\"".data = [] := by decide

/-- Model of the `EnvEntry` interface (the unused `comment` field is
omitted; `rawLine` is kept as in the source, where it is written during
parsing and never read). -/
structure EnvEntry where
  key : List Char
  value : List Char
  rawLine : Option (List Char)
deriving DecidableEq, Repr

instance : Inhabited EnvEntry := ⟨⟨[], [], none⟩⟩

/-- The insertion-ordered `Map<string, EnvEntry>`. -/
abbrev EnvMap : Type := List (List Char × EnvEntry)

/-- Model of `envMap.get(key)`. -/
def mapGet : EnvMap → List Char → Option EnvEntry
  | [], _ => none
  | p :: m, k => if p.1 = k then some p.2 else mapGet m k

/-- Model of `envMap.has(key)`. -/
def mapHas : EnvMap → List Char → Bool
  | [], _ => false
  | p :: m, k => decide (p.1 = k) || mapHas m k

/-- Model of `envMap.set(key, e)`: replace in place if the key is present,
otherwise append at the end (JavaScript `Map` insertion order). -/
def mapSet : EnvMap → List Char → EnvEntry → EnvMap
  | [], k, e => [(k, e)]
  | p :: m, k, e => if p.1 = k then (k, e) :: m else p :: mapSet m k e

/-- Model of `envMap.delete(key)`. -/
def mapDelete : EnvMap → List Char → EnvMap
  | [], _ => []
  | p :: m, k => if p.1 = k then m else p :: mapDelete m k

/-- One line of `parseEnvContent`: skip blank and comment lines, otherwise
match `KEY=VALUE`, trim the key, trim the value and strip one quote layer. -/
def parsedKV (line : List Char) : Option (List Char × List Char) :=
  if trimL line = [] ∨ (trimL line).head? = some '#' then none
  else
    match matchKV (trimL line) with
    | some kv => some (trimL kv.1, stripQuotes (trimL kv.2))
    | none => none

/-- The loop body of `parseEnvContent`. -/
def parseStep (m : EnvMap) (line : List Char) : EnvMap :=
  match parsedKV line with
  | some kv => mapSet m kv.1 ⟨kv.1, kv.2, some line⟩
  | none => m

/-- Model of `parseEnvContent`. -/
def parseEnvContent (content : List Char) : EnvMap :=
  (splitNl content).foldl parseStep []

/-- The emitted text of one entry: `` `${key}=${escapeValue(entry.value)}` ``. -/
def kvLine (key v : List Char) : List Char :=
  key ++ '=' :: escapeValue v

/-- The loop body of the format-preserving branch of `formatEnvContent`:
the accumulator carries `newLines` and `processedKeys` (kept as a list). -/
def scanStep (m : EnvMap) (acc : List (List Char) × List (List Char))
    (line : List Char) : List (List Char) × List (List Char) :=
  if trimL line = [] ∨ (trimL line).head? = some '#' then
    (acc.1 ++ [line], acc.2)
  else
    match matchKV (trimL line) with
    | some kv =>
      match mapGet m (trimL kv.1) with
      | some e => (acc.1 ++ [kvLine (trimL kv.1) e.value], acc.2 ++ [trimL kv.1])
      | none => acc
    | none => acc

/-- The lines emitted by the simple branch of `formatEnvContent`. -/
def simpleLines (m : EnvMap) : List (List Char) :=
  m.map (fun p => kvLine p.1 p.2.value)

/-- Model of `formatEnvContent(envMap, originalContent?)`.  The JavaScript
truthiness test `if (originalContent)` sends both `undefined` and the
empty string to the simple branch. -/
def formatEnvContent (m : EnvMap) (originalContent : Option (List Char)) :
    List Char :=
  match originalContent with
  | some oc =>
    if oc = [] then joinNl (simpleLines m) ++ ['\n']
    else
      let res := (splitNl oc).foldl (scanStep m) ([], [])
      let appended :=
        (m.filter (fun p => ! decide (p.1 ∈ res.2))).map
          (fun p => kvLine p.1 p.2.value)
      joinNl (res.1 ++ appended) ++ ['\n']
  | none => joinNl (simpleLines m) ++ ['\n']

/-- Model of `setCommand` at the file-content level: `none` is the
validation failure exit; otherwise the new file content.  The `existing`
argument is the current file content (`none` when the file is absent, in
which case `ensureEnvFile` yields an empty store and `originalContent`
stays `undefined`). -/
def setCmd (key value : List Char) (existing : Option (List Char)) :
    Option (List Char) :=
  if trimL key = [] then none
  else if ' ' ∈ key ∨ '=' ∈ key then none
  else
    some (formatEnvContent
      (mapSet (parseEnvContent (existing.getD [])) key
        ⟨trimL key, trimL value, none⟩)
      existing)

/-- The error categories printed by `getCommand` and `deleteCommand`. -/
inductive CmdErr where
  | keyNotFound
  | fileNotFound
deriving DecidableEq, Repr

/-- Observable outcome of a `get`/`delete` invocation: exit code, file
content afterwards (`none` = still absent), error category. -/
structure CmdResult where
  exitCode : Nat
  file : Option (List Char)
  err : Option CmdErr
deriving DecidableEq, Repr

/-- The `--prod`/`--dev` test `envFile === '.env.production' || envFile === '.env.development'`. -/
def isProdOrDev (envFile : Option (List Char)) : Bool :=
  decide (envFile = some ".env.production".data) ||
  decide (envFile = some ".env.development".data)

/-- Model of `getCommand`: `envFile` is the command-line file argument,
`file` the content of the target file (`none` when it does not exist). -/
def getCmd (key : List Char) (envFile : Option (List Char))
    (file : Option (List Char)) : CmdResult :=
  match file with
  | some content =>
    if mapHas (parseEnvContent content) key then ⟨0, some content, none⟩
    else ⟨1, some content, some CmdErr.keyNotFound⟩
  | none =>
    if isProdOrDev envFile then ⟨1, some [], some CmdErr.keyNotFound⟩
    else ⟨1, none, some CmdErr.fileNotFound⟩

/-- Model of `deleteCommand`. -/
def deleteCmd (key : List Char) (envFile : Option (List Char))
    (file : Option (List Char)) : CmdResult :=
  match file with
  | some content =>
    if mapHas (parseEnvContent content) key then
      ⟨0,
       some (formatEnvContent (mapDelete (parseEnvContent content) key)
         (some content)),
       none⟩
    else ⟨1, some content, some CmdErr.keyNotFound⟩
  | none =>
    if isProdOrDev envFile then ⟨1, some [], some CmdErr.keyNotFound⟩
    else ⟨1, none, some CmdErr.fileNotFound⟩

example : formatEnvContent (parseEnvContent "A=1\n".data) (some "A=1\n".data)
    = "A=1\n\n".data := by decide
example : formatEnvContent (mapDelete (parseEnvContent "A=1\nB=2\nC=3\n".data)
    "B".data) (some "A=1\nB=2\nC=3\n".data) = "A=1\nC=3\n\n".data := by decide
example : setCmd "Z".data "9".data (some "A=1\n".data)
    = some "A=1\n\nZ=9\n".data := by decide
example : setCmd "A".data "1".data none = some "A=1\n".data := by decide
example : setCmd "A".data "1".data (some "A=1\n".data)
    = some "A=1\n\n".data := by decide

/-! ## Specification-side definitions -/

/-- What one original line contributes to the rewritten line list:
blank/comment lines are kept, a recognized `KEY=VALUE` line whose key is
in the store is replaced, anything else is dropped. -/
def emitLine (m : EnvMap) (line : List Char) : Option (List Char) :=
  if trimL line = [] ∨ (trimL line).head? = some '#' then some line
  else
    match matchKV (trimL line) with
    | some kv =>
      match mapGet m (trimL kv.1) with
      | some e => some (kvLine (trimL kv.1) e.value)
      | none => none
    | none => none

/-- The key one original line adds to `processedKeys` (only lines whose
key is in the store are marked). -/
def processedOf (m : EnvMap) (line : List Char) : Option (List Char) :=
  if trimL line = [] ∨ (trimL line).head? = some '#' then none
  else
    match matchKV (trimL line) with
    | some kv =>
      match mapGet m (trimL kv.1) with
      | some _ => some (trimL kv.1)
      | none => none
    | none => none

/-- The recognized `(key, value, raw line)` triples of a text, in order. -/
def lineEntries (content : List Char) : List (List Char × List Char × List Char) :=
  (splitNl content).filterMap
    (fun l => (parsedKV l).map (fun kv => (kv.1, kv.2, l)))

/-- Folding the recognized triples into a store. -/
def entStep (m : EnvMap) (t : List Char × List Char × List Char) : EnvMap :=
  mapSet m t.1 ⟨t.1, t.2.1, some t.2.2⟩

/-- The `(value, raw line)` of the last triple with the given key. -/
def lastKV (k : List Char) :
    List (List Char × List Char × List Char) → Option (List Char × List Char)
  | [] => none
  | t :: rest =>
    match lastKV k rest with
    | some r => some r
    | none => if t.1 = k then some t.2 else none

/-- First occurrences of keys not already seen, in order. -/
def dedupNewKeys (seen : List (List Char)) : List (List Char) → List (List Char)
  | [] => []
  | k :: ks => if k ∈ seen then dedupNewKeys seen ks else k :: dedupNewKeys (k :: seen) ks

/-- The wording of the spec: the text ends with exactly one newline. -/
def endsWithOneNewline (s : List Char) : Bool :=
  decide (s.getLast? = some '\n') && ! decide (s.dropLast.getLast? = some '\n')

/-- Independent rendering of the escaping described by the spec: each
double quote preceded by a backslash. -/
def specEscape (v : List Char) : List Char :=
  (v.map (fun c => if c = '"' then ['\\', c] else [c])).flatten

/-- A key written exactly as the parser will read it back: nonempty, no
`=`, no `#`, no whitespace. -/
def canonicalKey (k : List Char) : Prop :=
  k ≠ [] ∧ ∀ c ∈ k, c ≠ '=' ∧ c ≠ '#' ∧ isWs c = false

instance (k : List Char) : Decidable (canonicalKey k) := by
  unfold canonicalKey; infer_instance

/-- The trimming at both ends leaves the list unchanged. -/
def noEdgeWsB (v : List Char) : Bool :=
  decide (v.dropWhile isWs = v) && decide (v.reverse.dropWhile isWs = v.reverse)

/-- A value written exactly as the parser will read it back: no space,
`=`, `#` (so it is emitted unquoted), no newline, no whitespace at the
edges, not itself quote-wrapped. -/
def canonicalValue (v : List Char) : Prop :=
  ' ' ∉ v ∧ '=' ∉ v ∧ '#' ∉ v ∧ '\n' ∉ v ∧ noEdgeWsB v = true ∧ stripQuotes v = v

instance (v : List Char) : Decidable (canonicalValue v) := by
  unfold canonicalValue; infer_instance

/-- A line the rewrite reproduces verbatim: blank, comment, or exactly
`KEY=VALUE` with a canonical key and value. -/
def CanonLineB (line : List Char) : Bool :=
  (decide (trimL line = []) || decide ((trimL line).head? = some '#')) ||
  (match matchKV line with
   | some kv =>
     decide (line = kv.1 ++ '=' :: kv.2) &&
     decide (canonicalKey kv.1) && decide (canonicalValue kv.2)
   | none => false)

/-- The value recovered for `k` after formatting a one-entry store with
value `v` and parsing the result back. -/
def parseFormatValue (k v : List Char) : Option (List Char) :=
  (mapGet (parseEnvContent (formatEnvContent [(k, ⟨k, v, none⟩)] none)) k).map
    EnvEntry.value

/-! ## Lemmas about splitting and joining -/

theorem splitNl_ne_nil (cs : List Char) : splitNl cs ≠ [] := by
  cases cs with
  | nil => simp [splitNl]
  | cons c cs =>
    unfold splitNl
    split
    · simp
    · split <;> simp

theorem joinNl_splitNl (cs : List Char) : joinNl (splitNl cs) = cs := by
  induction cs with
  | nil => rfl
  | cons c cs ih =>
    unfold splitNl
    by_cases h : c = '\n'
    · subst h
      rw [if_pos rfl]
      cases hs : splitNl cs with
      | nil => exact absurd hs (splitNl_ne_nil cs)
      | cons l ls =>
        rw [hs] at ih
        show '\n' :: joinNl (l :: ls) = '\n' :: cs
        rw [ih]
    · rw [if_neg h]
      cases hs : splitNl cs with
      | nil => exact absurd hs (splitNl_ne_nil cs)
      | cons l ls =>
        rw [hs] at ih
        cases ls with
        | nil =>
          show c :: l = c :: cs
          rw [← ih]
          rfl
        | cons l2 ls2 =>
          show (c :: l) ++ '\n' :: joinNl (l2 :: ls2) = c :: cs
          rw [← ih]
          rfl

theorem joinNl_append_single (xs : List (List Char)) (y : List Char)
    (h : xs ≠ []) : joinNl (xs ++ [y]) = joinNl xs ++ '\n' :: y := by
  induction xs with
  | nil => exact absurd rfl h
  | cons l ls ih =>
    cases ls with
    | nil => rfl
    | cons l2 ls2 =>
      show l ++ '\n' :: joinNl ((l2 :: ls2) ++ [y])
          = (l ++ '\n' :: joinNl (l2 :: ls2)) ++ '\n' :: y
      rw [ih (by simp)]
      simp

theorem splitNl_no_newline (cs : List Char) :
    ∀ l ∈ splitNl cs, '\n' ∉ l := by
  induction cs with
  | nil => simp [splitNl]
  | cons c cs ih =>
    unfold splitNl
    by_cases h : c = '\n'
    · rw [if_pos h]
      intro l hl
      rcases List.mem_cons.mp hl with h1 | h1
      · subst h1; simp
      · exact ih l h1
    · rw [if_neg h]
      cases hs : splitNl cs with
      | nil => exact absurd hs (splitNl_ne_nil cs)
      | cons l0 ls0 =>
        intro l hl
        rcases List.mem_cons.mp hl with h1 | h1
        · subst h1
          intro hmem
          rcases List.mem_cons.mp hmem with h2 | h2
          · exact h h2.symm
          · exact ih l0 (by rw [hs]; exact List.mem_cons_self _ _) h2
        · exact ih l (by rw [hs]; exact List.mem_cons_of_mem _ h1)

theorem splitNl_of_no_newline (l : List Char) (h : '\n' ∉ l) :
    splitNl l = [l] := by
  induction l with
  | nil => rfl
  | cons c cs ih =>
    unfold splitNl
    rw [if_neg (by intro e; exact h (e ▸ List.mem_cons_self c cs))]
    rw [ih (fun hm => h (List.mem_cons_of_mem c hm))]

theorem splitNl_cons_eq (c : Char) (cs : List Char) :
    splitNl (c :: cs) =
      if c = '\n' then [] :: splitNl cs
      else
        match splitNl cs with
        | [] => [[c]]
        | l :: ls => (c :: l) :: ls := rfl

theorem splitNl_append_newline (l cs : List Char) (h : '\n' ∉ l) :
    splitNl (l ++ '\n' :: cs) = l :: splitNl cs := by
  induction l with
  | nil => simp [splitNl]
  | cons c l ih =>
    show splitNl (c :: (l ++ '\n' :: cs)) = (c :: l) :: splitNl cs
    rw [splitNl_cons_eq]
    rw [if_neg (by intro e; exact h (e ▸ List.mem_cons_self c l))]
    rw [ih (fun hm => h (List.mem_cons_of_mem c hm))]

theorem splitNl_joinNl (xs : List (List Char)) (hne : xs ≠ [])
    (h : ∀ l ∈ xs, '\n' ∉ l) : splitNl (joinNl xs) = xs := by
  induction xs with
  | nil => exact absurd rfl hne
  | cons l ls ih =>
    cases ls with
    | nil =>
      show splitNl (joinNl [l]) = [l]
      exact splitNl_of_no_newline l (h l (List.mem_cons_self _ _))
    | cons l2 ls2 =>
      show splitNl (l ++ '\n' :: joinNl (l2 :: ls2)) = l :: l2 :: ls2
      rw [splitNl_append_newline l _ (h l (List.mem_cons_self _ _))]
      rw [ih (by simp) (fun x hx => h x (List.mem_cons_of_mem _ hx))]


/-! ## Lemmas about the ordered map -/

theorem mapGet_set_self (m : EnvMap) (k : List Char) (e : EnvEntry) :
    mapGet (mapSet m k e) k = some e := by
  induction m with
  | nil => simp [mapSet, mapGet]
  | cons p m ih =>
    by_cases h : p.1 = k
    · simp [mapSet, h, mapGet]
    · simp [mapSet, h, mapGet, ih]

theorem mapGet_set_ne (m : EnvMap) (k : List Char) (e : EnvEntry)
    (j : List Char) (h : j ≠ k) :
    mapGet (mapSet m k e) j = mapGet m j := by
  induction m with
  | nil =>
    show mapGet [(k, e)] j = none
    rw [mapGet, if_neg (fun hx => h hx.symm)]
    rfl
  | cons p m ih =>
    by_cases hp : p.1 = k
    · rw [mapSet, if_pos hp, mapGet, if_neg (fun hx => h hx.symm), mapGet,
        if_neg (fun hx => h (hp ▸ hx).symm)]
    · rw [mapSet, if_neg hp]
      by_cases hq : p.1 = j
      · rw [mapGet, if_pos hq, mapGet, if_pos hq]
      · rw [mapGet, if_neg hq, mapGet, if_neg hq, ih]

theorem mapHas_iff_mem (m : EnvMap) (k : List Char) :
    mapHas m k = true ↔ k ∈ m.map Prod.fst := by
  induction m with
  | nil => simp [mapHas]
  | cons p m ih =>
    simp only [mapHas, Bool.or_eq_true, decide_eq_true_eq, List.map_cons,
      List.mem_cons, ih]
    constructor
    · rintro (h | h)
      · exact Or.inl h.symm
      · exact Or.inr h
    · rintro (h | h)
      · exact Or.inl h.symm
      · exact Or.inr h

theorem mapGet_isSome_iff_mem (m : EnvMap) (k : List Char) :
    (mapGet m k).isSome = true ↔ k ∈ m.map Prod.fst := by
  induction m with
  | nil => simp [mapGet]
  | cons p m ih =>
    by_cases h : p.1 = k
    · simp [mapGet, h]
    · simp only [mapGet, if_neg h, List.map_cons, List.mem_cons, ih]
      constructor
      · intro hx; exact Or.inr hx
      · rintro (hx | hx)
        · exact absurd hx.symm h
        · exact hx

theorem mapHas_eq_isSome (m : EnvMap) (k : List Char) :
    mapHas m k = (mapGet m k).isSome := by
  induction m with
  | nil => simp [mapHas, mapGet]
  | cons p m ih =>
    by_cases h : p.1 = k
    · simp [mapHas, mapGet, h]
    · simp [mapHas, mapGet, h, ih]

theorem mapSet_keys_has (m : EnvMap) (k : List Char) (e : EnvEntry)
    (h : k ∈ m.map Prod.fst) :
    (mapSet m k e).map Prod.fst = m.map Prod.fst := by
  induction m with
  | nil => simp at h
  | cons p m ih =>
    by_cases hp : p.1 = k
    · simp [mapSet, hp]
    · have hm : k ∈ m.map Prod.fst := by
        rw [List.map_cons] at h
        rcases List.mem_cons.mp h with h1 | h1
        · exact absurd h1.symm hp
        · exact h1
      simp [mapSet, hp, ih hm]

theorem mapSet_keys_new (m : EnvMap) (k : List Char) (e : EnvEntry)
    (h : k ∉ m.map Prod.fst) :
    (mapSet m k e).map Prod.fst = m.map Prod.fst ++ [k] := by
  induction m with
  | nil => simp [mapSet]
  | cons p m ih =>
    have hp : p.1 ≠ k := by
      intro e2; exact h (by simp [e2])
    have hm : k ∉ m.map Prod.fst := fun hx => h (by simp [hx])
    simp [mapSet, hp, ih hm]

theorem mapGet_mem (m : EnvMap) (k : List Char) (e : EnvEntry)
    (h : mapGet m k = some e) : (k, e) ∈ m := by
  induction m with
  | nil => simp [mapGet] at h
  | cons p m ih =>
    obtain ⟨pk, pe⟩ := p
    by_cases hp : pk = k
    · subst hp
      rw [mapGet, if_pos rfl] at h
      cases h
      exact List.mem_cons_self _ _
    · rw [mapGet, if_neg hp] at h
      exact List.mem_cons_of_mem _ (ih h)

/-! ## Folding recognized triples into the store -/

theorem parse_eq_foldl_entries (content : List Char) :
    parseEnvContent content = (lineEntries content).foldl entStep [] := by
  unfold parseEnvContent lineEntries
  generalize splitNl content = L
  suffices h : ∀ (L : List (List Char)) (m : EnvMap),
      L.foldl parseStep m =
        (L.filterMap (fun l => (parsedKV l).map (fun kv => (kv.1, kv.2, l)))).foldl
          entStep m by
    exact h L []
  intro L
  induction L with
  | nil => intro m; rfl
  | cons l L ih =>
    intro m
    rw [List.foldl_cons, List.filterMap_cons]
    cases hp : parsedKV l with
    | none =>
      have hstep : parseStep m l = m := by simp [parseStep, hp]
      rw [hstep, ih m]
      simp
    | some kv =>
      have hstep : parseStep m l = entStep m (kv.1, kv.2, l) := by
        simp [parseStep, hp, entStep]
      rw [hstep, ih]
      simp

theorem foldl_entStep_get (k : List Char)
    (kvs : List (List Char × List Char × List Char)) :
    ∀ m0 : EnvMap,
      mapGet (kvs.foldl entStep m0) k =
        match lastKV k kvs with
        | some r => some ⟨k, r.1, some r.2⟩
        | none => mapGet m0 k := by
  induction kvs with
  | nil => intro m0; simp [lastKV]
  | cons t kvs ih =>
    intro m0
    rw [List.foldl_cons, ih]
    show _ = (match lastKV k (t :: kvs) with
      | some r => some ⟨k, r.1, some r.2⟩
      | none => mapGet m0 k)
    rw [lastKV]
    cases h : lastKV k kvs with
    | some r => simp
    | none =>
      by_cases ht : t.1 = k
      · simp only [if_pos ht, entStep]
        rw [ht, mapGet_set_self]
      · simp only [if_neg ht, entStep]
        rw [mapGet_set_ne _ _ _ _ (fun hx => ht hx.symm)]

theorem dedupNewKeys_congr (ks : List (List Char)) :
    ∀ s1 s2 : List (List Char), (∀ x, x ∈ s1 ↔ x ∈ s2) →
      dedupNewKeys s1 ks = dedupNewKeys s2 ks := by
  induction ks with
  | nil => intro s1 s2 _; rfl
  | cons k ks ih =>
    intro s1 s2 hs
    rw [dedupNewKeys, dedupNewKeys]
    by_cases h : k ∈ s1
    · rw [if_pos h, if_pos ((hs k).mp h)]
      exact ih s1 s2 hs
    · rw [if_neg h, if_neg (fun hx => h ((hs k).mpr hx))]
      rw [ih (k :: s1) (k :: s2) (by intro x; simp [hs x])]

theorem mem_dedupNewKeys (k : List Char) (ks : List (List Char)) :
    ∀ seen, k ∈ dedupNewKeys seen ks ↔ k ∈ ks ∧ k ∉ seen := by
  induction ks with
  | nil => intro seen; simp [dedupNewKeys]
  | cons k0 ks ih =>
    intro seen
    rw [dedupNewKeys]
    by_cases h : k0 ∈ seen
    · rw [if_pos h, ih]
      constructor
      · rintro ⟨h1, h2⟩
        exact ⟨List.mem_cons_of_mem _ h1, h2⟩
      · rintro ⟨h1, h2⟩
        rcases List.mem_cons.mp h1 with h3 | h3
        · exact absurd (h3 ▸ h) h2
        · exact ⟨h3, h2⟩
    · rw [if_neg h]
      by_cases hk : k = k0
      · subst hk
        simp [List.mem_cons, ih, h]
      · rw [List.mem_cons, List.mem_cons, ih]
        constructor
        · rintro (h1 | ⟨h1, h2⟩)
          · exact absurd h1 hk
          · exact ⟨Or.inr h1, fun hx => h2 (List.mem_cons_of_mem _ hx)⟩
        · rintro ⟨h1 | h1, h2⟩
          · exact absurd h1 hk
          · refine Or.inr ⟨h1, fun hx => ?_⟩
            rcases List.mem_cons.mp hx with h3 | h3
            · exact hk h3
            · exact h2 h3

theorem foldl_entStep_keys (kvs : List (List Char × List Char × List Char)) :
    ∀ m0 : EnvMap,
      (kvs.foldl entStep m0).map Prod.fst =
        m0.map Prod.fst ++
          dedupNewKeys (m0.map Prod.fst) (kvs.map (fun t => t.1)) := by
  induction kvs with
  | nil => intro m0; simp [dedupNewKeys]
  | cons t kvs ih =>
    intro m0
    rw [List.foldl_cons, ih, List.map_cons, dedupNewKeys]
    by_cases h : t.1 ∈ m0.map Prod.fst
    · have hk : (entStep m0 t).map Prod.fst = m0.map Prod.fst :=
        mapSet_keys_has _ _ _ h
      rw [hk, if_pos h]
    · have hk : (entStep m0 t).map Prod.fst = m0.map Prod.fst ++ [t.1] :=
        mapSet_keys_new _ _ _ h
      rw [hk, if_neg h]
      rw [dedupNewKeys_congr (kvs.map (fun t => t.1))
        (m0.map Prod.fst ++ [t.1]) (t.1 :: m0.map Prod.fst)
        (by intro x; simp; tauto)]
      simp

theorem lastKV_eq_none (k : List Char)
    (kvs : List (List Char × List Char × List Char))
    (h : k ∉ kvs.map (fun t => t.1)) : lastKV k kvs = none := by
  induction kvs with
  | nil => rfl
  | cons t kvs ih =>
    rw [lastKV]
    rw [ih (fun hx => h (by simp [hx]))]
    rw [if_neg (fun hx => h (by simp [hx]))]

theorem lastKV_of_nodup (kvs : List (List Char × List Char × List Char))
    (hnd : (kvs.map (fun t => t.1)).Nodup)
    (t : List Char × List Char × List Char) (ht : t ∈ kvs) :
    lastKV t.1 kvs = some t.2 := by
  induction kvs with
  | nil => simp at ht
  | cons u kvs ih =>
    rw [List.map_cons, List.nodup_cons] at hnd
    rcases List.mem_cons.mp ht with h1 | h1
    · subst h1
      rw [lastKV, lastKV_eq_none _ _ (by
        intro hx
        exact hnd.1 (by
          rcases List.mem_map.mp hx with ⟨u2, hu2, he⟩
          exact List.mem_map.mpr ⟨u2, hu2, he⟩)), if_pos rfl]
    · rw [lastKV, ih hnd.2 h1]

/-! ## Characterizing the format-preserving scan -/

theorem scanStep_eq (m : EnvMap) (acc : List (List Char) × List (List Char))
    (line : List Char) :
    scanStep m acc line =
      (acc.1 ++ (emitLine m line).toList, acc.2 ++ (processedOf m line).toList) := by
  unfold scanStep emitLine processedOf
  by_cases h : trimL line = [] ∨ (trimL line).head? = some '#'
  · rw [if_pos h, if_pos h, if_pos h]
    simp
  · rw [if_neg h, if_neg h, if_neg h]
    cases hm : matchKV (trimL line) with
    | none => simp
    | some kv =>
      cases hg : mapGet m (trimL kv.1) with
      | none => simp [hg]
      | some e => simp [hg]

theorem scan_eq_filterMap (m : EnvMap) (L : List (List Char)) :
    ∀ a b : List (List Char),
      L.foldl (scanStep m) (a, b) =
        (a ++ L.filterMap (emitLine m), b ++ L.filterMap (processedOf m)) := by
  induction L with
  | nil => intro a b; simp
  | cons line L ih =>
    intro a b
    rw [List.foldl_cons, scanStep_eq, ih, List.filterMap_cons, List.filterMap_cons]
    cases he : emitLine m line <;> cases hp : processedOf m line <;>
      simp [Option.toList]

/-! ## Trimming and canonical lines -/

theorem dropWhile_cons_false (p : Char → Bool) (c : Char) (l : List Char)
    (h : p c = false) : (c :: l).dropWhile p = c :: l := by
  rw [List.dropWhile_cons, h]
  simp

theorem dropWhile_eq_self_of_all (p : Char → Bool) (l : List Char)
    (h : ∀ c ∈ l, p c = false) : l.dropWhile p = l := by
  cases l with
  | nil => rfl
  | cons c t => exact dropWhile_cons_false p c t (h c (List.mem_cons_self c t))

theorem length_dropWhile_le (p : Char → Bool) (l : List Char) :
    (l.dropWhile p).length ≤ l.length := by
  induction l with
  | nil => simp
  | cons c l ih =>
    rw [List.dropWhile_cons]
    by_cases h : p c = true
    · simp only [h, if_true]
      exact le_trans ih (by simp)
    · rw [Bool.not_eq_true] at h
      simp [h]

theorem trimL_eq_self (v : List Char) (h : noEdgeWsB v = true) :
    trimL v = v := by
  unfold noEdgeWsB at h
  rw [Bool.and_eq_true, decide_eq_true_eq, decide_eq_true_eq] at h
  unfold trimL
  rw [h.1, h.2, List.reverse_reverse]

theorem head_not_of_dropWhile_eq (p : Char → Bool) (l : List Char)
    (h : l.dropWhile p = l) (c : Char) (t : List Char) (hl : l = c :: t) :
    p c = false := by
  subst hl
  by_contra hc
  rw [Bool.not_eq_false] at hc
  rw [List.dropWhile_cons, hc, if_pos rfl] at h
  have h1 := length_dropWhile_le p t
  rw [h, List.length_cons] at h1
  omega

theorem all_not_ws_noEdge (v : List Char)
    (h : ∀ c ∈ v, isWs c = false) : noEdgeWsB v = true := by
  unfold noEdgeWsB
  rw [Bool.and_eq_true, decide_eq_true_eq, decide_eq_true_eq]
  exact ⟨dropWhile_eq_self_of_all isWs v h,
    dropWhile_eq_self_of_all isWs v.reverse
      (fun c hc => h c (List.mem_reverse.mp hc))⟩

theorem scanKey_cons (acc : List Char) (c : Char) (cs : List Char) :
    scanKey acc (c :: cs) =
      if c = '=' then (if acc = [] then none else some (acc.reverse, cs))
      else if c = '#' then none
      else scanKey (c :: acc) cs := rfl

theorem scanKey_spec (v : List Char) : ∀ k acc : List Char,
    (∀ c ∈ k, c ≠ '=' ∧ c ≠ '#') → k.reverse ++ acc ≠ [] →
    scanKey acc (k ++ '=' :: v) = some (acc.reverse ++ k, v) := by
  intro k
  induction k with
  | nil =>
    intro acc _ hne
    simp only [List.reverse_nil, List.nil_append] at hne
    show scanKey acc ('=' :: v) = _
    rw [scanKey_cons, if_pos rfl, if_neg hne]
    simp
  | cons c k ih =>
    intro acc hk hne
    have hc := hk c (List.mem_cons_self c k)
    show scanKey acc (c :: (k ++ '=' :: v)) = _
    rw [scanKey_cons, if_neg hc.1, if_neg hc.2]
    rw [ih (c :: acc) (fun x hx => hk x (List.mem_cons_of_mem c hx)) (by simp)]
    simp

theorem matchKV_canonical (k v : List Char) (hk : canonicalKey k) :
    matchKV (k ++ '=' :: v) = some (k, v) := by
  unfold matchKV
  have h := scanKey_spec v k []
    (fun c hc => ⟨(hk.2 c hc).1, (hk.2 c hc).2.1⟩) (by simp [hk.1])
  simpa using h

theorem trimL_canonical_line (k v : List Char) (hk : canonicalKey k)
    (hnw : noEdgeWsB v = true) :
    trimL (k ++ '=' :: v) = k ++ '=' :: v := by
  obtain ⟨hne, hall⟩ := hk
  have h1 : (k ++ '=' :: v).dropWhile isWs = k ++ '=' :: v := by
    cases k with
    | nil => exact absurd rfl hne
    | cons c k2 =>
      rw [List.cons_append]
      exact dropWhile_cons_false _ _ _ (hall c (List.mem_cons_self c k2)).2.2
  have h2 : (k ++ '=' :: v).reverse.dropWhile isWs = (k ++ '=' :: v).reverse := by
    rw [List.reverse_append, List.reverse_cons]
    cases hv : v.reverse with
    | nil =>
      simp only [List.nil_append, List.singleton_append]
      exact dropWhile_cons_false _ _ _ (by decide)
    | cons d t =>
      have hd : isWs d = false := by
        unfold noEdgeWsB at hnw
        rw [Bool.and_eq_true, decide_eq_true_eq, decide_eq_true_eq] at hnw
        exact head_not_of_dropWhile_eq isWs v.reverse hnw.2 d t hv
      simp only [List.cons_append, List.append_assoc]
      exact dropWhile_cons_false _ _ _ hd
  unfold trimL
  rw [h1, h2, List.reverse_reverse]

theorem canonLineB_cases (line : List Char) (h : CanonLineB line = true) :
    (trimL line = [] ∨ (trimL line).head? = some '#') ∨
    ∃ k v, line = k ++ '=' :: v ∧ canonicalKey k ∧ canonicalValue v := by
  unfold CanonLineB at h
  rw [Bool.or_eq_true] at h
  rcases h with h | h
  · rw [Bool.or_eq_true, decide_eq_true_eq, decide_eq_true_eq] at h
    exact Or.inl h
  · right
    cases hm : matchKV line with
    | none => rw [hm] at h; simp at h
    | some kv =>
      rw [hm] at h
      rw [Bool.and_eq_true, Bool.and_eq_true, decide_eq_true_eq,
        decide_eq_true_eq, decide_eq_true_eq] at h
      exact ⟨kv.1, kv.2, h.1.1, h.1.2, h.2⟩

theorem escapeValue_eq_self (v : List Char) (hv : canonicalValue v) :
    escapeValue v = v := by
  obtain ⟨h1, h2, h3, _, _, _⟩ := hv
  unfold escapeValue
  rw [if_neg]
  rintro (hx | hx | hx)
  · exact h1 hx
  · exact h2 hx
  · exact h3 hx

theorem canonical_line_not_blank (k v : List Char) (hk : canonicalKey k)
    (hnw : noEdgeWsB v = true) :
    ¬(trimL (k ++ '=' :: v) = [] ∨
      (trimL (k ++ '=' :: v)).head? = some '#') := by
  obtain ⟨hne, hall⟩ := hk
  rw [trimL_canonical_line k v ⟨hne, hall⟩ hnw]
  rintro (hx | hx)
  · cases k with
    | nil => exact hne rfl
    | cons c k2 => simp at hx
  · cases k with
    | nil => exact hne rfl
    | cons c k2 =>
      rw [List.cons_append] at hx
      simp only [List.head?_cons, Option.some_inj] at hx
      exact (hall c (List.mem_cons_self c k2)).2.1 hx

theorem trimL_key_eq_self (k : List Char) (hk : canonicalKey k) :
    trimL k = k :=
  trimL_eq_self k (all_not_ws_noEdge k (fun c hc => (hk.2 c hc).2.2))

theorem parsedKV_canonical (k v : List Char) (hk : canonicalKey k)
    (hv : canonicalValue v) : parsedKV (k ++ '=' :: v) = some (k, v) := by
  have hnw : noEdgeWsB v = true := hv.2.2.2.2.1
  have ht : trimL (k ++ '=' :: v) = k ++ '=' :: v :=
    trimL_canonical_line k v hk hnw
  unfold parsedKV
  rw [ht, if_neg (by rw [← ht]; exact canonical_line_not_blank k v hk hnw)]
  rw [matchKV_canonical k v hk]
  show some (trimL k, stripQuotes (trimL v)) = some (k, v)
  rw [trimL_key_eq_self k hk, trimL_eq_self v hnw, hv.2.2.2.2.2]

theorem parsedKV_blank (line : List Char)
    (h : trimL line = [] ∨ (trimL line).head? = some '#') :
    parsedKV line = none := by
  unfold parsedKV
  rw [if_pos h]

theorem emitLine_blank (m : EnvMap) (line : List Char)
    (h : trimL line = [] ∨ (trimL line).head? = some '#') :
    emitLine m line = some line := by
  unfold emitLine
  rw [if_pos h]

theorem processedOf_blank (m : EnvMap) (line : List Char)
    (h : trimL line = [] ∨ (trimL line).head? = some '#') :
    processedOf m line = none := by
  unfold processedOf
  rw [if_pos h]

theorem emitLine_canonical_get (m : EnvMap) (k v : List Char) (e : EnvEntry)
    (hk : canonicalKey k) (hv : canonicalValue v)
    (hget : mapGet m k = some e) :
    emitLine m (k ++ '=' :: v) = some (kvLine k e.value) := by
  have hnw : noEdgeWsB v = true := hv.2.2.2.2.1
  have ht : trimL (k ++ '=' :: v) = k ++ '=' :: v :=
    trimL_canonical_line k v hk hnw
  unfold emitLine
  rw [if_neg (canonical_line_not_blank k v hk hnw), ht]
  rw [matchKV_canonical k v hk]
  show (match mapGet m (trimL k) with
    | some e => some (kvLine (trimL k) e.value)
    | none => none) = _
  rw [trimL_key_eq_self k hk, hget]

theorem emitLine_canonical_self (m : EnvMap) (k v : List Char) (e : EnvEntry)
    (hk : canonicalKey k) (hv : canonicalValue v)
    (hget : mapGet m k = some e) (hval : e.value = v) :
    emitLine m (k ++ '=' :: v) = some (k ++ '=' :: v) := by
  rw [emitLine_canonical_get m k v e hk hv hget, hval]
  unfold kvLine
  rw [escapeValue_eq_self v hv]

theorem processedOf_canonical (m : EnvMap) (k v : List Char) (e : EnvEntry)
    (hk : canonicalKey k) (hv : canonicalValue v)
    (hget : mapGet m k = some e) :
    processedOf m (k ++ '=' :: v) = some k := by
  have hnw : noEdgeWsB v = true := hv.2.2.2.2.1
  have ht : trimL (k ++ '=' :: v) = k ++ '=' :: v :=
    trimL_canonical_line k v hk hnw
  unfold processedOf
  rw [if_neg (canonical_line_not_blank k v hk hnw), ht]
  rw [matchKV_canonical k v hk]
  show (match mapGet m (trimL k) with
    | some _ => some (trimL k)
    | none => none) = _
  rw [trimL_key_eq_self k hk, hget]

theorem filter_false_nil {α : Type} (p : α → Bool) (l : List α)
    (h : ∀ a ∈ l, p a = false) : l.filter p = [] := by
  induction l with
  | nil => rfl
  | cons a l ih =>
    rw [List.filter_cons, h a (List.mem_cons_self a l)]
    simp only [Bool.false_eq_true, if_false]
    exact ih (fun x hx => h x (List.mem_cons_of_mem a hx))

theorem filterMap_id_of_self {α : Type} (f : α → Option α) (l : List α)
    (h : ∀ a ∈ l, f a = some a) : l.filterMap f = l := by
  induction l with
  | nil => rfl
  | cons a l ih =>
    rw [List.filterMap_cons, h a (List.mem_cons_self a l)]
    rw [ih (fun x hx => h x (List.mem_cons_of_mem a hx))]

theorem formatEnvContent_some_ne (m : EnvMap) (oc : List Char) (hoc : oc ≠ []) :
    formatEnvContent m (some oc) =
      joinNl ((splitNl oc).filterMap (emitLine m) ++
        (m.filter (fun p =>
          ! decide (p.1 ∈ (splitNl oc).filterMap (processedOf m)))).map
          (fun p => kvLine p.1 p.2.value)) ++ ['\n'] := by
  simp only [formatEnvContent]
  rw [if_neg hoc, scan_eq_filterMap]
  simp only [List.nil_append]

theorem format_self (m : EnvMap) (oc : List Char) (hoc : oc ≠ [])
    (h1 : ∀ line ∈ splitNl oc, emitLine m line = some line)
    (h2 : ∀ p ∈ m, p.1 ∈ (splitNl oc).filterMap (processedOf m)) :
    formatEnvContent m (some oc) = oc ++ ['\n'] := by
  rw [formatEnvContent_some_ne m oc hoc]
  rw [filterMap_id_of_self _ _ h1]
  rw [filter_false_nil _ m (fun p hp => by simp [h2 p hp])]
  rw [List.map_nil, List.append_nil, joinNl_splitNl]

/-! ## Claim C1 -/

/-- C1, counterexample to the claim as stated: for the well-formed text
`A=1\n` (one `KEY=VALUE` line, values without space, `=`, `#`),
`format(parse(T), T)` is `A=1\n\n`, not `T`: the rewrite keeps the empty
final line produced by the trailing newline and then appends another
newline. -/
theorem roundtrip_counterexample :
    formatEnvContent (parseEnvContent "A=1\n".data) (some "A=1\n".data)
      = "A=1\n\n".data ∧
    formatEnvContent (parseEnvContent "A=1\n".data) (some "A=1\n".data)
      ≠ "A=1\n".data := by
  constructor
  · decide
  · decide

/-- C1, amended: for a text all of whose lines are blank, comments, or
exactly `KEY=VALUE` with canonical keys and values, the keys being
pairwise distinct, `format(parse(T), T)` returns `T` followed by one
extra newline character. -/
theorem roundtrip_canonical (T : List Char)
    (hc : ∀ line ∈ splitNl T, CanonLineB line = true)
    (hnd : ((lineEntries T).map (fun t => t.1)).Nodup) :
    formatEnvContent (parseEnvContent T) (some T) = T ++ ['\n'] := by
  by_cases hT : T = []
  · subst hT
    decide
  · have hget : ∀ k v line, line ∈ splitNl T → parsedKV line = some (k, v) →
        mapGet (parseEnvContent T) k = some ⟨k, v, some line⟩ := by
      intro k v line hline hpl
      have hmem : (k, v, line) ∈ lineEntries T := by
        unfold lineEntries
        exact List.mem_filterMap.mpr ⟨line, hline, by rw [hpl]; rfl⟩
      have hlast : lastKV k (lineEntries T) = some (v, line) :=
        lastKV_of_nodup _ hnd (k, v, line) hmem
      rw [parse_eq_foldl_entries, foldl_entStep_get, hlast]
    apply format_self _ _ hT
    · intro line hline
      rcases canonLineB_cases line (hc line hline) with hbl | ⟨k, v, hlv, hk, hv⟩
      · exact emitLine_blank _ line hbl
      · subst hlv
        have hpl := parsedKV_canonical k v hk hv
        exact emitLine_canonical_self _ k v _ hk hv (hget k v _ hline hpl) rfl
    · intro p hp
      have hkeys : p.1 ∈ (parseEnvContent T).map Prod.fst :=
        List.mem_map.mpr ⟨p, hp, rfl⟩
      rw [parse_eq_foldl_entries, foldl_entStep_keys] at hkeys
      have hmem := (mem_dedupNewKeys p.1 _ []).mp (by simpa using hkeys)
      obtain ⟨t, htmem, hteq⟩ := List.mem_map.mp hmem.1
      obtain ⟨line, hlineT, hfl⟩ := List.mem_filterMap.mp htmem
      rcases canonLineB_cases line (hc line hlineT) with hbl | ⟨k, v, hlv, hk, hv⟩
      · rw [parsedKV_blank line hbl] at hfl
        simp at hfl
      · subst hlv
        rw [parsedKV_canonical k v hk hv] at hfl
        have ht2 : t = (k, v, k ++ '=' :: v) := by
          simpa using hfl.symm
        apply List.mem_filterMap.mpr
        refine ⟨k ++ '=' :: v, hlineT, ?_⟩
        have hpl := parsedKV_canonical k v hk hv
        rw [processedOf_canonical _ k v _ hk hv (hget k v _ hlineT hpl)]
        rw [← hteq, ht2]

/-- Witness for C1 at the concrete text `# note\nA=1\nB=2\n`. -/
theorem roundtrip_canonical_witness :
    (∀ line ∈ splitNl "# note\nA=1\nB=2\n".data, CanonLineB line = true) ∧
    ((lineEntries "# note\nA=1\nB=2\n".data).map (fun t => t.1)).Nodup ∧
    formatEnvContent (parseEnvContent "# note\nA=1\nB=2\n".data)
      (some "# note\nA=1\nB=2\n".data) = "# note\nA=1\nB=2\n".data ++ ['\n'] :=
  ⟨by decide, by decide, roundtrip_canonical _ (by decide) (by decide)⟩

/-! ## Claim C2 -/

/-- C2, counterexample to the claim as stated: with the empty store and
original content `\n`, the formatted output is `\n\n`, which does not end
with exactly one trailing newline. -/
theorem trailing_newline_counterexample :
    endsWithOneNewline (formatEnvContent [] (some "\n".data)) = false ∧
    formatEnvContent [] (some "\n".data) = "\n\n".data := by
  constructor
  · decide
  · decide

/-- C2, amended: for every mapping and every originalContent (supplied or
omitted) the string returned by format ends with a trailing newline
character; it can end with more than one. -/
theorem format_ends_with_newline (m : EnvMap) (orig : Option (List Char)) :
    (formatEnvContent m orig).getLast? = some '\n' := by
  cases orig with
  | none =>
    show (joinNl (simpleLines m) ++ ['\n']).getLast? = some '\n'
    exact List.getLast?_concat _
  | some oc =>
    by_cases h : oc = []
    · subst h
      show (joinNl (simpleLines m) ++ ['\n']).getLast? = some '\n'
      exact List.getLast?_concat _
    · rw [formatEnvContent_some_ne m oc h]
      exact List.getLast?_concat _

/-! ## Claim C4 -/

/-- C4, counterexample to the claim as stated: deleting `B` from
`A=1\nB=2\nC=3\n` does not produce `A=1\nC=3\n`. -/
theorem delete_target_counterexample :
    formatEnvContent
        (mapDelete (parseEnvContent "A=1\nB=2\nC=3\n".data) "B".data)
        (some "A=1\nB=2\nC=3\n".data)
      ≠ "A=1\nC=3\n".data := by
  decide

/-- C4, amended: deleting `B` from `A=1\nB=2\nC=3\n` removes exactly the
`B=2` line and keeps the others, but the rewrite appends one extra
newline, producing `A=1\nC=3\n\n`. -/
theorem delete_target_amended :
    formatEnvContent
        (mapDelete (parseEnvContent "A=1\nB=2\nC=3\n".data) "B".data)
        (some "A=1\nB=2\nC=3\n".data)
      = "A=1\nC=3\n\n".data := by
  decide

/-! ## Claim C5 -/

/-- C5, counterexample to the claim as stated: setting the fresh key `Z`
to `9` on the file `A=1\n` does not produce `A=1\nZ=9\n`. -/
theorem append_new_key_counterexample :
    setCmd "Z".data "9".data (some "A=1\n".data)
      ≠ some "A=1\nZ=9\n".data := by
  decide

/-- C5, amended: setting the fresh key `Z` to `9` on the file `A=1\n`
appends `Z=9` after all original lines (not interleaved), but after the
empty line coming from the original trailing newline, producing
`A=1\n\nZ=9\n`. -/
theorem append_new_key_amended :
    setCmd "Z".data "9".data (some "A=1\n".data)
      = some "A=1\n\nZ=9\n".data := by
  decide

/-! ## Claim C8 -/

/-- C8: `get` and `delete` against a nonexistent file exit nonzero with a
not-found error and do not create the file, except that for
`.env.production` or `.env.development` the file is first created empty
and the key is then reported as not found, still with nonzero exit. -/
theorem missing_file_get_delete (k : List Char) (envFile : Option (List Char)) :
    getCmd k envFile none =
      (if isProdOrDev envFile then ⟨1, some [], some CmdErr.keyNotFound⟩
       else ⟨1, none, some CmdErr.fileNotFound⟩) ∧
    deleteCmd k envFile none =
      (if isProdOrDev envFile then ⟨1, some [], some CmdErr.keyNotFound⟩
       else ⟨1, none, some CmdErr.fileNotFound⟩) ∧
    (getCmd k envFile none).exitCode ≠ 0 ∧
    (deleteCmd k envFile none).exitCode ≠ 0 := by
  unfold getCmd deleteCmd
  by_cases h : isProdOrDev envFile = true
  · simp [h]
  · rw [Bool.not_eq_true] at h
    simp [h]

/-! ## Claim C6 -/

theorem escapeQuotes_eq_specEscape (v : List Char) :
    escapeQuotes v = specEscape v := by
  induction v with
  | nil => rfl
  | cons c cs ih =>
    unfold specEscape at ih ⊢
    rw [List.map_cons, List.flatten_cons, escapeQuotes, ih]
    by_cases h : c = '"'
    · subst h
      rfl
    · rw [if_neg h, if_neg h]

theorem length_le_escapeQuotes (v : List Char) :
    v.length ≤ (escapeQuotes v).length := by
  induction v with
  | nil => simp [escapeQuotes]
  | cons c cs ih =>
    rw [escapeQuotes]
    by_cases h : c = '"'
    · rw [if_pos h]
      simp only [List.length_append, List.length_cons]
      simp
      omega
    · rw [if_neg h]
      simp only [List.length_append, List.length_cons]
      simp
      omega

/-- C6: `escapeValue` wraps the value in double quotes, with a backslash
inserted before every literal double quote, exactly when the value
contains a space, `=` or `#`, and returns the value unchanged otherwise;
the three documented examples evaluate as stated. -/
theorem escapeValue_characterization :
    (∀ v : List Char,
      escapeValue v =
        (if needsQuote v then '"' :: (specEscape v ++ ['"']) else v) ∧
      (escapeValue v = v ↔ ¬needsQuote v)) ∧
    escapeValue "hello world".data = "\"hello world\"".data ∧
    escapeValue "a=b".data = "\"a=b\"".data ∧
    escapeValue "simple".data = "simple".data := by
  refine ⟨fun v => ⟨?_, ?_, ?_⟩, by decide, by decide, by decide⟩
  · rw [← escapeQuotes_eq_specEscape]
    rfl
  · intro he
    intro hq
    have h1 : escapeValue v = '"' :: (escapeQuotes v ++ ['"']) := by
      unfold escapeValue
      rw [if_pos hq]
    rw [h1] at he
    have h2 := congrArg List.length he
    simp only [List.length_cons, List.length_append, List.length_cons,
      List.length_nil] at h2
    have h3 := length_le_escapeQuotes v
    omega
  · intro h
    unfold escapeValue
    rw [if_neg h]

/-! ## Claim C7 -/

/-- C7: whenever a text has two or more recognized `KEY=VALUE` lines with
the same key, the parsed store keeps that key at its first-occurrence
position (the key list equals the first-occurrence deduplication of the
line keys) while its value is taken from the last such line. -/
theorem parse_duplicate_keys (content k : List Char)
    (hdup : 2 ≤ ((lineEntries content).filter
      (fun t => decide (t.1 = k))).length) :
    (parseEnvContent content).map Prod.fst =
      dedupNewKeys [] ((lineEntries content).map (fun t => t.1)) ∧
    (mapGet (parseEnvContent content) k).map EnvEntry.value =
      (lastKV k (lineEntries content)).map (fun r => r.1) := by
  constructor
  · rw [parse_eq_foldl_entries, foldl_entStep_keys]
    simp
  · rw [parse_eq_foldl_entries, foldl_entStep_get]
    cases h : lastKV k (lineEntries content) with
    | some r => simp
    | none => simp [mapGet]

/-- Witness for C7 at the text `A=1\nA=2\nB=3\n` and key `A`. -/
theorem parse_duplicate_keys_witness :
    2 ≤ ((lineEntries "A=1\nA=2\nB=3\n".data).filter
      (fun t => decide (t.1 = "A".data))).length ∧
    (parseEnvContent "A=1\nA=2\nB=3\n".data).map Prod.fst =
      dedupNewKeys [] ((lineEntries "A=1\nA=2\nB=3\n".data).map (fun t => t.1)) ∧
    (mapGet (parseEnvContent "A=1\nA=2\nB=3\n".data) "A".data).map EnvEntry.value =
      (lastKV "A".data (lineEntries "A=1\nA=2\nB=3\n".data)).map (fun r => r.1) :=
  ⟨by decide, parse_duplicate_keys "A=1\nA=2\nB=3\n".data "A".data (by decide)⟩

/-! ## Claim C9 -/

theorem emitLine_of_processed (m : EnvMap) (k : List Char) (e : EnvEntry)
    (hk : mapGet m k = some e) (l : List Char)
    (h : processedOf m l = some k) :
    emitLine m l = some (kvLine k e.value) := by
  unfold processedOf at h
  unfold emitLine
  by_cases hb : trimL l = [] ∨ (trimL l).head? = some '#'
  · rw [if_pos hb] at h
    simp at h
  · rw [if_neg hb] at h
    rw [if_neg hb]
    cases hm : matchKV (trimL l) with
    | none =>
      rw [hm] at h
      simp at h
    | some kv =>
      rw [hm] at h
      have h2 : (match mapGet m (trimL kv.1) with
          | some _ => some (trimL kv.1)
          | none => none) = some k := h
      show (match mapGet m (trimL kv.1) with
        | some e3 => some (kvLine (trimL kv.1) e3.value)
        | none => none) = some (kvLine k e.value)
      cases hg : mapGet m (trimL kv.1) with
      | none =>
        rw [hg] at h2
        simp at h2
      | some e2 =>
        rw [hg] at h2
        have h3 : some (trimL kv.1) = some k := h2
        have hkk : trimL kv.1 = k := Option.some_inj.mp h3
        show some (kvLine (trimL kv.1) e2.value) = some (kvLine k e.value)
        have he2 : e2 = e := by
          rw [hkk] at hg
          rw [hg] at hk
          exact Option.some_inj.mp hk
        rw [hkk, he2]

theorem processed_count_le (m : EnvMap) (k : List Char) (e : EnvEntry)
    (hk : mapGet m k = some e) (L : List (List Char)) :
    L.countP (fun l => decide (processedOf m l = some k)) ≤
      (L.filterMap (emitLine m)).count (kvLine k e.value) := by
  induction L with
  | nil => simp
  | cons l L ih =>
    by_cases h : processedOf m l = some k
    · rw [List.countP_cons, List.filterMap_cons,
        emitLine_of_processed m k e hk l h, List.count_cons]
      simp [h]
      omega
    · rw [List.countP_cons, List.filterMap_cons]
      have hp : decide (processedOf m l = some k) = false := decide_eq_false h
      simp only [hp, Bool.false_eq_true, if_false, Nat.add_zero]
      cases he : emitLine m l with
      | none => exact ih
      | some x =>
        rw [List.count_cons]
        omega

/-- C9: in the format-preserving rewrite every recognized line whose key
is in the store is replaced by `KEY=ESCAPED_VALUE` — not only the first
such line: the rewritten line list is the per-line image of the original
lines, and the number of emitted copies of the key's line is at least the
number of original lines carrying that key (the `processedKeys` mark only
suppresses the final append step). -/
theorem duplicate_lines_reemitted (m : EnvMap) (oc k : List Char)
    (e : EnvEntry) (hoc : oc ≠ []) (hk : mapGet m k = some e) :
    formatEnvContent m (some oc) =
      joinNl ((splitNl oc).filterMap (emitLine m) ++
        (m.filter (fun p =>
          ! decide (p.1 ∈ (splitNl oc).filterMap (processedOf m)))).map
          (fun p => kvLine p.1 p.2.value)) ++ ['\n'] ∧
    (splitNl oc).countP (fun l => decide (processedOf m l = some k)) ≤
      ((splitNl oc).filterMap (emitLine m)).count (kvLine k e.value) :=
  ⟨formatEnvContent_some_ne m oc hoc, processed_count_le m k e hk (splitNl oc)⟩

/-- Witness for C9 at the store parsed from `A=1\nA=2\n` (key `A` occurs
on two lines) and that same text as originalContent. -/
theorem duplicate_lines_reemitted_witness :
    ("A=1\nA=2\n".data ≠ ([] : List Char)) ∧
    mapGet (parseEnvContent "A=1\nA=2\n".data) "A".data =
      some ⟨"A".data, "2".data, some "A=2".data⟩ ∧
    (splitNl "A=1\nA=2\n".data).countP
        (fun l => decide (processedOf (parseEnvContent "A=1\nA=2\n".data) l
          = some "A".data)) ≤
      ((splitNl "A=1\nA=2\n".data).filterMap
        (emitLine (parseEnvContent "A=1\nA=2\n".data))).count
        (kvLine "A".data "2".data) :=
  ⟨by decide, by decide,
   (duplicate_lines_reemitted (parseEnvContent "A=1\nA=2\n".data)
      "A=1\nA=2\n".data "A".data ⟨"A".data, "2".data, some "A=2".data⟩
      (by decide) (by decide)).2⟩

/-! ## Claim C10 -/

theorem escapeQuotes_mem (v : List Char) (c : Char) (h : c ∈ escapeQuotes v) :
    c = '\\' ∨ c ∈ v := by
  induction v with
  | nil => simp [escapeQuotes] at h
  | cons d cs ih =>
    rw [escapeQuotes] at h
    rcases List.mem_append.mp h with h1 | h1
    · by_cases hd : d = '"'
      · rw [if_pos hd] at h1
        rcases List.mem_cons.mp h1 with h2 | h2
        · exact Or.inl h2
        · rcases List.mem_cons.mp h2 with h3 | h3
          · exact Or.inr (by rw [h3, hd]; exact List.mem_cons_self _ _)
          · simp at h3
      · rw [if_neg hd] at h1
        rcases List.mem_cons.mp h1 with h2 | h2
        · exact Or.inr (by rw [h2]; exact List.mem_cons_self _ _)
        · simp at h2
    · rcases ih h1 with h2 | h2
      · exact Or.inl h2
      · exact Or.inr (List.mem_cons_of_mem _ h2)

theorem escapeQuotes_eq_self (v : List Char) (h : '"' ∉ v) :
    escapeQuotes v = v := by
  induction v with
  | nil => rfl
  | cons c cs ih =>
    rw [escapeQuotes]
    rw [if_neg (fun hx => h (by rw [← hx]; exact List.mem_cons_self c cs))]
    rw [ih (fun hx => h (List.mem_cons_of_mem c hx))]
    rfl

theorem length_lt_escapeQuotes (v : List Char) (h : '"' ∈ v) :
    v.length < (escapeQuotes v).length := by
  induction v with
  | nil => simp at h
  | cons c cs ih =>
    rw [escapeQuotes]
    by_cases hc : c = '"'
    · rw [if_pos hc]
      have := length_le_escapeQuotes cs
      simp only [List.length_append, List.length_cons]
      simp
      omega
    · rw [if_neg hc]
      have hmem : '"' ∈ cs := by
        rcases List.mem_cons.mp h with h1 | h1
        · exact absurd h1.symm hc
        · exact h1
      have := ih hmem
      simp only [List.length_append, List.length_cons]
      simp
      omega

theorem escapeQuotes_ne_self (v : List Char) (h : '"' ∈ v) :
    escapeQuotes v ≠ v := by
  intro he
  have := length_lt_escapeQuotes v h
  rw [he] at this
  omega

theorem noEdgeWs_of_ends (a b : Char) (mid : List Char)
    (ha : isWs a = false) (hb : isWs b = false) :
    noEdgeWsB (a :: (mid ++ [b])) = true := by
  unfold noEdgeWsB
  rw [Bool.and_eq_true, decide_eq_true_eq, decide_eq_true_eq]
  constructor
  · exact dropWhile_cons_false _ _ _ ha
  · have hr : (a :: (mid ++ [b])).reverse = b :: (mid.reverse ++ [a]) := by
      simp
    rw [hr]
    exact dropWhile_cons_false _ _ _ hb

theorem stripQuotes_quoted (x : List Char) :
    stripQuotes ('"' :: (x ++ ['"'])) = x := by
  unfold stripQuotes quoteWrapped
  have hlast : ('"' :: (x ++ ['"'])).getLast? = some '"' := by
    rw [show '"' :: (x ++ ['"']) = ('"' :: x) ++ ['"'] from rfl]
    exact List.getLast?_concat _
  rw [if_pos (by rw [hlast]; simp)]
  show (x ++ ['"']).dropLast = x
  simp

theorem canonicalKey_no_newline (k : List Char) (hk : canonicalKey k) :
    '\n' ∉ k := by
  intro hin
  have := (hk.2 '\n' hin).2.2
  simp [isWs] at this

theorem format_singleton (k v : List Char) :
    formatEnvContent [(k, ⟨k, v, none⟩)] none =
      (k ++ '=' :: escapeValue v) ++ ['\n'] := by
  show joinNl (simpleLines [(k, ⟨k, v, none⟩)]) ++ ['\n'] = _
  rfl

theorem splitNl_single_line (line : List Char) (h : '\n' ∉ line) :
    splitNl (line ++ ['\n']) = [line, []] := by
  have h2 := splitNl_append_newline line [] h
  simpa [splitNl] using h2

theorem parse_single_kv (line k v2 : List Char)
    (hnl : '\n' ∉ line) (hp : parsedKV line = some (k, v2)) :
    parseEnvContent (line ++ ['\n']) = [(k, ⟨k, v2, some line⟩)] := by
  unfold parseEnvContent
  rw [splitNl_single_line line hnl]
  show parseStep (parseStep [] line) [] = _
  have h1 : parseStep [] line = [(k, ⟨k, v2, some line⟩)] := by
    unfold parseStep
    rw [hp]
    rfl
  rw [h1]
  unfold parseStep
  rw [parsedKV_blank [] (Or.inl rfl)]

theorem parsedKV_quoted (k v : List Char) (hk : canonicalKey k) :
    parsedKV (k ++ '=' :: ('"' :: (escapeQuotes v ++ ['"']))) =
      some (k, escapeQuotes v) := by
  have hEw : noEdgeWsB ('"' :: (escapeQuotes v ++ ['"'])) = true :=
    noEdgeWs_of_ends '"' '"' (escapeQuotes v) (by decide) (by decide)
  have ht : trimL (k ++ '=' :: ('"' :: (escapeQuotes v ++ ['"'])))
      = k ++ '=' :: ('"' :: (escapeQuotes v ++ ['"'])) :=
    trimL_canonical_line k _ hk hEw
  unfold parsedKV
  rw [ht, if_neg (by rw [← ht]; exact canonical_line_not_blank k _ hk hEw)]
  rw [matchKV_canonical k _ hk]
  show some (trimL k, stripQuotes (trimL ('"' :: (escapeQuotes v ++ ['"']))))
    = some (k, escapeQuotes v)
  rw [trimL_key_eq_self k hk, trimL_eq_self _ hEw, stripQuotes_quoted]

theorem escapeValue_no_newline (v : List Char) (hnl : '\n' ∉ v) :
    '\n' ∉ escapeValue v := by
  unfold escapeValue
  by_cases hq : needsQuote v
  · rw [if_pos hq]
    intro hin
    rcases List.mem_cons.mp hin with h1 | h1
    · simp at h1
    · rcases List.mem_append.mp h1 with h2 | h2
      · rcases escapeQuotes_mem v '\n' h2 with h3 | h3
        · simp at h3
        · exact hnl h3
      · simp at h2
  · rw [if_neg hq]
    exact hnl

theorem kvLine_no_newline (k v : List Char) (hk : canonicalKey k)
    (hnl : '\n' ∉ v) : '\n' ∉ kvLine k v := by
  unfold kvLine
  intro hin
  rcases List.mem_append.mp hin with h1 | h1
  · exact canonicalKey_no_newline k hk h1
  · rcases List.mem_cons.mp h1 with h2 | h2
    · simp at h2
    · exact escapeValue_no_newline v hnl h2

theorem parseFormatValue_quoted (k v : List Char) (hk : canonicalKey k)
    (hnl : '\n' ∉ v) (hq : needsQuote v) :
    parseFormatValue k v = some (escapeQuotes v) := by
  unfold parseFormatValue
  rw [format_singleton]
  have hE : escapeValue v = '"' :: (escapeQuotes v ++ ['"']) := by
    unfold escapeValue
    rw [if_pos hq]
  have hnl2 : '\n' ∉ k ++ '=' :: escapeValue v := by
    have := kvLine_no_newline k v hk hnl
    unfold kvLine at this
    exact this
  rw [parse_single_kv (k ++ '=' :: escapeValue v) k (escapeQuotes v) hnl2
    (by rw [hE]; exact parsedKV_quoted k v hk)]
  rw [mapGet]
  rw [if_pos rfl]
  rfl

theorem parseFormatValue_plain (k v : List Char) (hk : canonicalKey k)
    (hnl : '\n' ∉ v) (hnq : ¬needsQuote v) (hs : stripQuotes v = v)
    (hw : noEdgeWsB v = true) :
    parseFormatValue k v = some v := by
  unfold parseFormatValue
  rw [format_singleton]
  have hE : escapeValue v = v := by
    unfold escapeValue
    rw [if_neg hnq]
  have hpl : parsedKV (k ++ '=' :: escapeValue v) = some (k, v) := by
    rw [hE]
    unfold parsedKV
    have ht : trimL (k ++ '=' :: v) = k ++ '=' :: v :=
      trimL_canonical_line k v hk hw
    rw [ht, if_neg (by rw [← ht]; exact canonical_line_not_blank k v hk hw)]
    rw [matchKV_canonical k v hk]
    show some (trimL k, stripQuotes (trimL v)) = some (k, v)
    rw [trimL_key_eq_self k hk, trimL_eq_self v hw, hs]
  have hnl2 : '\n' ∉ k ++ '=' :: escapeValue v := by
    have := kvLine_no_newline k v hk hnl
    unfold kvLine at this
    exact this
  rw [parse_single_kv (k ++ '=' :: escapeValue v) k v hnl2 hpl]
  rw [mapGet]
  rw [if_pos rfl]
  rfl

/-- C10, counterexample to the claim as stated: `\ta` (tab then `a`)
contains no double quote and is not quote-wrapped, yet formatting a
one-entry store holding it and parsing the result back recovers `a`, not
`\ta` — the parser re-trims the emitted line. -/
theorem parse_format_value_counterexample :
    parseFormatValue "K".data "\ta".data = some "a".data ∧
    some "a".data ≠ some "\ta".data := by
  constructor
  · decide
  · decide

/-- C10, amended: over a one-entry store with a canonical key and a
newline-free value, parse after format is not the identity on values:
when the value contains a double quote together with a space, `=` or `#`,
the recovered value is the backslash-escaped rendering (one outer quote
layer stripped, no unescaping), which differs from the original; a value
with no double quote that is not quote-wrapped, has no whitespace at its
edges and needs no quoting, or needs quoting, is recovered exactly. -/
theorem parse_format_value_characterization (k v : List Char)
    (hk : canonicalKey k) (hnl : '\n' ∉ v) :
    ('"' ∈ v → needsQuote v →
      parseFormatValue k v = some (escapeQuotes v) ∧ escapeQuotes v ≠ v) ∧
    ('"' ∉ v → stripQuotes v = v → noEdgeWsB v = true →
      parseFormatValue k v = some v) := by
  constructor
  · intro hmem hq
    exact ⟨parseFormatValue_quoted k v hk hnl hq, escapeQuotes_ne_self v hmem⟩
  · intro hmem hs hw
    by_cases hq : needsQuote v
    · rw [parseFormatValue_quoted k v hk hnl hq, escapeQuotes_eq_self v hmem]
    · exact parseFormatValue_plain k v hk hnl hq hs hw

/-- Witness for C10 at key `K` and the values `a "b` (quote plus space)
and `ab`. -/
theorem parse_format_value_witness :
    (canonicalKey "K".data ∧ '\n' ∉ "a \"b".data ∧ '"' ∈ "a \"b".data ∧
      needsQuote "a \"b".data ∧
      parseFormatValue "K".data "a \"b".data = some "a \\\"b".data ∧
      "a \\\"b".data ≠ "a \"b".data) ∧
    (canonicalKey "K".data ∧ '\n' ∉ "ab".data ∧ '"' ∉ "ab".data ∧
      parseFormatValue "K".data "ab".data = some "ab".data) := by
  constructor
  · refine ⟨by decide, by decide, by decide, by decide, ?_, by decide⟩
    have h := (parse_format_value_characterization "K".data "a \"b".data
      (by decide) (by decide)).1 (by decide) (by decide)
    have he : escapeQuotes "a \"b".data = "a \\\"b".data := by decide
    rw [← he]
    exact h.1
  · refine ⟨by decide, by decide, by decide, ?_⟩
    exact (parse_format_value_characterization "K".data "ab".data
      (by decide) (by decide)).2 (by decide) (by decide) (by decide)

/-! ## Claim C3: helper layer -/

theorem parse_nil : parseEnvContent [] = [] := rfl

theorem canonLineB_nil : CanonLineB [] = true := by decide

theorem mapSet_eq_append (m : EnvMap) (k : List Char) (e : EnvEntry)
    (h : k ∉ m.map Prod.fst) : mapSet m k e = m ++ [(k, e)] := by
  induction m with
  | nil => rfl
  | cons p m ih =>
    have hp : p.1 ≠ k := fun hx => h (by simp [hx])
    rw [mapSet, if_neg hp, ih (fun hx => h (by simp [hx]))]
    rfl

theorem lineEntries_keys (content : List Char) :
    (lineEntries content).map (fun t => t.1) =
      ((splitNl content).filterMap parsedKV).map Prod.fst := by
  unfold lineEntries
  rw [List.map_filterMap, List.map_filterMap]
  apply List.filterMap_congr
  intro l _
  cases parsedKV l <;> simp

theorem canonLineB_of_canonical (k v : List Char) (hk : canonicalKey k)
    (hv : canonicalValue v) : CanonLineB (k ++ '=' :: v) = true := by
  unfold CanonLineB
  rw [matchKV_canonical k v hk]
  rw [Bool.or_eq_true]
  right
  show (decide (k ++ '=' :: v = k ++ '=' :: v) && decide (canonicalKey k)
    && decide (canonicalValue v)) = true
  rw [Bool.and_eq_true, Bool.and_eq_true]
  exact ⟨⟨decide_eq_true rfl, decide_eq_true hk⟩, decide_eq_true hv⟩

theorem canonical_decompose (line j w : List Char)
    (hcl : CanonLineB line = true) (hp : parsedKV line = some (j, w)) :
    line = j ++ '=' :: w ∧ canonicalKey j ∧ canonicalValue w := by
  rcases canonLineB_cases line hcl with hbl | ⟨k2, v2, hlv, hk2, hv2⟩
  · rw [parsedKV_blank line hbl] at hp
    exact absurd hp (by simp)
  · subst hlv
    rw [parsedKV_canonical k2 v2 hk2 hv2] at hp
    injection hp with hx
    obtain ⟨hj, hw⟩ := Prod.mk.injEq .. |>.mp hx
    subst hj
    subst hw
    exact ⟨rfl, hk2, hv2⟩

theorem lineEntries_unique (c : List Char)
    (hnd : ((lineEntries c).map (fun t => t.1)).Nodup)
    (t1 t2 : List Char × List Char × List Char)
    (h1 : t1 ∈ lineEntries c) (h2 : t2 ∈ lineEntries c)
    (he : t1.1 = t2.1) : t1 = t2 := by
  have e1 := lastKV_of_nodup _ hnd t1 h1
  have e2 := lastKV_of_nodup _ hnd t2 h2
  rw [he, e2] at e1
  have h3 : t2.2 = t1.2 := Option.some_inj.mp e1
  obtain ⟨a1, b1⟩ := t1
  obtain ⟨a2, b2⟩ := t2
  simp only at he h3
  rw [he, h3]

theorem parse_get_of_nodup (c : List Char)
    (hnd : ((lineEntries c).map (fun t => t.1)).Nodup)
    (j w line : List Char) (hline : line ∈ splitNl c)
    (hp : parsedKV line = some (j, w)) :
    mapGet (parseEnvContent c) j = some ⟨j, w, some line⟩ := by
  have hmem : (j, w, line) ∈ lineEntries c := by
    unfold lineEntries
    exact List.mem_filterMap.mpr ⟨line, hline, by rw [hp]; rfl⟩
  have hlast : lastKV j (lineEntries c) = some (w, line) :=
    lastKV_of_nodup _ hnd (j, w, line) hmem
  rw [parse_eq_foldl_entries, foldl_entStep_get, hlast]

theorem parsedKV_of_processed (m : EnvMap) (line j : List Char)
    (h : processedOf m line = some j) :
    ∃ w, parsedKV line = some (j, w) := by
  unfold processedOf at h
  unfold parsedKV
  by_cases hb : trimL line = [] ∨ (trimL line).head? = some '#'
  · rw [if_pos hb] at h
    simp at h
  · rw [if_neg hb] at h
    rw [if_neg hb]
    cases hm : matchKV (trimL line) with
    | none =>
      rw [hm] at h
      simp at h
    | some kv =>
      rw [hm] at h
      have h2 : (match mapGet m (trimL kv.1) with
          | some _ => some (trimL kv.1)
          | none => none) = some j := h
      cases hg : mapGet m (trimL kv.1) with
      | none =>
        rw [hg] at h2
        simp at h2
      | some e2 =>
        rw [hg] at h2
        have h4 : some (trimL kv.1) = some j := h2
        have h3 : trimL kv.1 = j := Option.some_inj.mp h4
        refine ⟨stripQuotes (trimL kv.2), ?_⟩
        show some (trimL kv.1, stripQuotes (trimL kv.2))
          = some (j, stripQuotes (trimL kv.2))
        rw [h3]

theorem key_mem_of_parse (c j : List Char)
    (h : j ∈ (parseEnvContent c).map Prod.fst) :
    j ∈ (lineEntries c).map (fun t => t.1) := by
  rw [parse_eq_foldl_entries, foldl_entStep_keys] at h
  have h2 := (mem_dedupNewKeys j _ []).mp (by simpa using h)
  exact h2.1

theorem setCmd_eq (k v c : List Char) (hk : canonicalKey k)
    (hv : canonicalValue v) :
    setCmd k v (some c) = some (formatEnvContent
      (mapSet (parseEnvContent c) k ⟨k, v, none⟩) (some c)) := by
  unfold setCmd
  have htk : trimL k = k := trimL_key_eq_self k hk
  have htv : trimL v = v := trimL_eq_self v hv.2.2.2.2.1
  rw [htk, htv]
  rw [if_neg hk.1]
  rw [if_neg (by
    rintro (hx | hx)
    · have h2 := (hk.2 ' ' hx).2.2
      simp [isWs] at h2
    · exact (hk.2 '=' hx).1 rfl)]
  rfl

theorem emit_lines_spec (m1 : EnvMap) (L : List (List Char))
    (h : ∀ l ∈ L, ∃ l2, emitLine m1 l = some l2 ∧
      (parsedKV l2).map Prod.fst = (parsedKV l).map Prod.fst ∧
      CanonLineB l2 = true ∧ '\n' ∉ l2) :
    (∀ x ∈ L.filterMap (emitLine m1), CanonLineB x = true ∧ '\n' ∉ x) ∧
    ((L.filterMap (emitLine m1)).filterMap parsedKV).map Prod.fst =
      (L.filterMap parsedKV).map Prod.fst := by
  induction L with
  | nil => exact ⟨by simp, by simp⟩
  | cons l L ih =>
    obtain ⟨l2, he, hpk, hcl, hnl⟩ := h l (List.mem_cons_self l L)
    obtain ⟨ih1, ih2⟩ := ih (fun x hx => h x (List.mem_cons_of_mem l hx))
    constructor
    · intro x hx
      rw [List.filterMap_cons_some he] at hx
      rcases List.mem_cons.mp hx with h1 | h1
      · rw [h1]
        exact ⟨hcl, hnl⟩
      · exact ih1 x h1
    · rw [List.filterMap_cons_some he]
      cases hp2 : parsedKV l2 with
      | none =>
        have hp1 : parsedKV l = none := by
          rw [hp2] at hpk
          cases hq : parsedKV l
          · rfl
          · rw [hq] at hpk
            simp at hpk
        rw [List.filterMap_cons_none hp2, List.filterMap_cons_none hp1]
        exact ih2
      | some kw =>
        rw [hp2] at hpk
        cases hp1 : parsedKV l with
        | none =>
          rw [hp1] at hpk
          simp at hpk
        | some kw1 =>
          rw [hp1] at hpk
          simp only [Option.map_some'] at hpk
          have hfst : kw.1 = kw1.1 := Option.some_inj.mp hpk
          rw [List.filterMap_cons_some hp2, List.filterMap_cons_some hp1]
          simp only [List.map_cons]
          rw [ih2, hfst]

theorem canonical_line_no_newline (j w : List Char) (hj : canonicalKey j)
    (hnw : '\n' ∉ w) : '\n' ∉ j ++ '=' :: w := by
  intro hin
  rcases List.mem_append.mp hin with h1 | h1
  · exact canonicalKey_no_newline j hj h1
  · rcases List.mem_cons.mp h1 with h2 | h2
    · simp at h2
    · exact hnw h2

theorem filterMap_ne_nil_of_some {α β : Type} (f : α → Option β)
    (L : List α) (hL : L ≠ []) (h : ∀ a ∈ L, (f a).isSome = true) :
    L.filterMap f ≠ [] := by
  cases L with
  | nil => exact absurd rfl hL
  | cons a L =>
    obtain ⟨b, hb⟩ := Option.isSome_iff_exists.mp (h a (List.mem_cons_self a L))
    rw [List.filterMap_cons_some hb]
    simp

theorem nodup_append_single {α : Type} (l : List α) (a : α)
    (h : l.Nodup) (ha : a ∉ l) : (l ++ [a]).Nodup := by
  induction l with
  | nil => simp
  | cons x l ih =>
    rw [List.cons_append, List.nodup_cons]
    rw [List.nodup_cons] at h
    constructor
    · intro hx
      rcases List.mem_append.mp hx with h1 | h1
      · exact h.1 h1
      · rcases List.mem_cons.mp h1 with h2 | h2
        · exact ha (by rw [h2]; exact List.mem_cons_self _ _)
        · simp at h2
    · exact ih h.2 (fun hx => ha (List.mem_cons_of_mem _ hx))

theorem setCmd_first (c k v : List Char)
    (hc : ∀ line ∈ splitNl c, CanonLineB line = true)
    (hnd : ((lineEntries c).map (fun t => t.1)).Nodup)
    (hk : canonicalKey k) (hv : canonicalValue v) :
    ∃ newLines : List (List Char),
      setCmd k v (some c) = some (joinNl newLines ++ ['\n']) ∧
      newLines ≠ [] ∧
      (∀ l ∈ newLines, CanonLineB l = true ∧ '\n' ∉ l) ∧
      ((newLines.filterMap parsedKV).map Prod.fst).Nodup ∧
      (∃ l ∈ newLines, parsedKV l = some (k, v)) := by
  rw [setCmd_eq k v c hk hv]
  by_cases hce : c = []
  · subst hce
    refine ⟨[k ++ '=' :: v], ?_, by simp, ?_, ?_, ?_⟩
    · rw [parse_nil]
      show some (joinNl [kvLine k v] ++ ['\n']) = _
      unfold kvLine
      rw [escapeValue_eq_self v hv]
    · intro l hl
      rcases List.mem_cons.mp hl with h1 | h1
      · rw [h1]
        exact ⟨canonLineB_of_canonical k v hk hv,
          canonical_line_no_newline k v hk hv.2.2.2.1⟩
      · simp at h1
    · rw [List.filterMap_cons_some (parsedKV_canonical k v hk hv)]
      simp
    · exact ⟨k ++ '=' :: v, List.mem_cons_self _ _, parsedKV_canonical k v hk hv⟩
  · have hperline : ∀ l ∈ splitNl c, ∃ l2,
        emitLine (mapSet (parseEnvContent c) k ⟨k, v, none⟩) l = some l2 ∧
        (parsedKV l2).map Prod.fst = (parsedKV l).map Prod.fst ∧
        CanonLineB l2 = true ∧ '\n' ∉ l2 := by
      intro l hl
      rcases canonLineB_cases l (hc l hl) with hbl | ⟨j, w, hlv, hj, hw⟩
      · exact ⟨l, emitLine_blank _ l hbl, rfl, hc l hl, splitNl_no_newline c l hl⟩
      · subst hlv
        by_cases hjk : j = k
        · subst hjk
          have hg : mapGet (mapSet (parseEnvContent c) j ⟨j, v, none⟩) j
              = some ⟨j, v, none⟩ := mapGet_set_self _ j _
          refine ⟨j ++ '=' :: v, ?_, ?_, canonLineB_of_canonical j v hj hv,
            canonical_line_no_newline j v hj hv.2.2.2.1⟩
          · rw [emitLine_canonical_get _ j w ⟨j, v, none⟩ hj hw hg]
            show some (kvLine j v) = _
            unfold kvLine
            rw [escapeValue_eq_self v hv]
          · rw [parsedKV_canonical j v hj hv, parsedKV_canonical j w hj hw]
            rfl
        · have hp := parsedKV_canonical j w hj hw
          have hg0 : mapGet (parseEnvContent c) j = some ⟨j, w, some (j ++ '=' :: w)⟩ :=
            parse_get_of_nodup c hnd j w _ hl hp
          have hg : mapGet (mapSet (parseEnvContent c) k ⟨k, v, none⟩) j
              = some ⟨j, w, some (j ++ '=' :: w)⟩ := by
            rw [mapGet_set_ne _ k _ j hjk]
            exact hg0
          exact ⟨j ++ '=' :: w, emitLine_canonical_self _ j w _ hj hw hg rfl,
            rfl, hc _ hl, splitNl_no_newline c _ hl⟩
    obtain ⟨hEprops, hEkeys⟩ :=
      emit_lines_spec (mapSet (parseEnvContent c) k ⟨k, v, none⟩) (splitNl c)
        hperline
    have hcov : ∀ j, j ∈ (parseEnvContent c).map Prod.fst →
        j ∈ (splitNl c).filterMap
          (processedOf (mapSet (parseEnvContent c) k ⟨k, v, none⟩)) := by
      intro j hj
      have hje := key_mem_of_parse c j hj
      obtain ⟨t, htm, hte⟩ := List.mem_map.mp hje
      obtain ⟨line, hlm, hfl⟩ := List.mem_filterMap.mp htm
      cases hq : parsedKV line with
      | none =>
        rw [hq] at hfl
        simp at hfl
      | some kw =>
        rw [hq] at hfl
        simp only [Option.map_some'] at hfl
        have hkw : kw.1 = j := by
          rw [← hte, ← Option.some_inj.mp hfl]
        obtain ⟨hdec, hkj, hvw⟩ :=
          canonical_decompose line kw.1 kw.2 (hc line hlm) (by rw [hq])
        have hg1 : (mapGet (mapSet (parseEnvContent c) k ⟨k, v, none⟩)
            kw.1).isSome = true := by
          by_cases hjk : kw.1 = k
          · rw [hjk, mapGet_set_self]
            rfl
          · rw [mapGet_set_ne _ k _ kw.1 hjk]
            rw [parse_get_of_nodup c hnd kw.1 kw.2 line hlm (by rw [hq])]
            rfl
        obtain ⟨e1, hge⟩ := Option.isSome_iff_exists.mp hg1
        apply List.mem_filterMap.mpr
        refine ⟨line, hlm, ?_⟩
        rw [hdec]
        rw [processedOf_canonical _ kw.1 kw.2 e1 hkj hvw hge]
        rw [hkw]
    have hEne : (splitNl c).filterMap
        (emitLine (mapSet (parseEnvContent c) k ⟨k, v, none⟩)) ≠ [] := by
      apply filterMap_ne_nil_of_some _ _ (splitNl_ne_nil c)
      intro a ha
      obtain ⟨l2, he, _, _, _⟩ := hperline a ha
      rw [he]
      rfl
    rw [formatEnvContent_some_ne _ c hce]
    by_cases hkm : k ∈ (parseEnvContent c).map Prod.fst
    · -- the key already occurs in the file: nothing is appended
      have hallkeys : ∀ p, p ∈ mapSet (parseEnvContent c) k ⟨k, v, none⟩ →
          p.1 ∈ (splitNl c).filterMap
            (processedOf (mapSet (parseEnvContent c) k ⟨k, v, none⟩)) := by
        intro p hp
        apply hcov
        rw [← mapSet_keys_has (parseEnvContent c) k ⟨k, v, none⟩ hkm]
        exact List.mem_map.mpr ⟨p, hp, rfl⟩
      have hA : (mapSet (parseEnvContent c) k ⟨k, v, none⟩).filter
          (fun p => ! decide (p.1 ∈ (splitNl c).filterMap
            (processedOf (mapSet (parseEnvContent c) k ⟨k, v, none⟩)))) = [] := by
        apply filter_false_nil
        intro p hp
        simp [hallkeys p hp]
      refine ⟨(splitNl c).filterMap
        (emitLine (mapSet (parseEnvContent c) k ⟨k, v, none⟩)), ?_, hEne, ?_, ?_, ?_⟩
      · rw [hA]
        simp
      · exact hEprops
      · rw [hEkeys, ← lineEntries_keys]
        exact hnd
      · -- the key's own line was rewritten to KEY=VALUE
        obtain ⟨t, htm, hte⟩ := List.mem_map.mp (key_mem_of_parse c k hkm)
        obtain ⟨line, hlm, hfl⟩ := List.mem_filterMap.mp htm
        cases hq : parsedKV line with
        | none =>
          rw [hq] at hfl
          simp at hfl
        | some kw =>
          rw [hq] at hfl
          simp only [Option.map_some'] at hfl
          have hkw : kw.1 = k := by
            rw [← hte, ← Option.some_inj.mp hfl]
          obtain ⟨hdec, hkj, hvw⟩ :=
            canonical_decompose line kw.1 kw.2 (hc line hlm) (by rw [hq])
          refine ⟨k ++ '=' :: v, ?_, parsedKV_canonical k v hk hv⟩
          apply List.mem_filterMap.mpr
          refine ⟨line, hlm, ?_⟩
          rw [hdec]
          have hg : mapGet (mapSet (parseEnvContent c) k ⟨k, v, none⟩) kw.1
              = some ⟨k, v, none⟩ := by
            rw [hkw]
            exact mapGet_set_self _ k _
          rw [emitLine_canonical_get _ kw.1 kw.2 ⟨k, v, none⟩ hkj hvw hg]
          show some (kvLine kw.1 v) = some (k ++ '=' :: v)
          rw [hkw]
          unfold kvLine
          rw [escapeValue_eq_self v hv]
    · -- fresh key: exactly one line is appended
      have hset : mapSet (parseEnvContent c) k ⟨k, v, none⟩
          = parseEnvContent c ++ [(k, ⟨k, v, none⟩)] :=
        mapSet_eq_append _ k _ hkm
      have hknotP : k ∉ (splitNl c).filterMap
          (processedOf (mapSet (parseEnvContent c) k ⟨k, v, none⟩)) := by
        intro hmem
        obtain ⟨line, hlm, hpo⟩ := List.mem_filterMap.mp hmem
        obtain ⟨w, hw⟩ := parsedKV_of_processed _ line k hpo
        have : k ∈ (lineEntries c).map (fun t => t.1) := by
          apply List.mem_map.mpr
          refine ⟨(k, w, line), ?_, rfl⟩
          unfold lineEntries
          exact List.mem_filterMap.mpr ⟨line, hlm, by rw [hw]; rfl⟩
        apply hkm
        rw [parse_eq_foldl_entries, foldl_entStep_keys]
        simp only [List.map_nil, List.nil_append]
        exact (mem_dedupNewKeys k _ []).mpr ⟨this, by simp⟩
      have hA : (mapSet (parseEnvContent c) k ⟨k, v, none⟩).filter
          (fun p => ! decide (p.1 ∈ (splitNl c).filterMap
            (processedOf (mapSet (parseEnvContent c) k ⟨k, v, none⟩))))
          = [(k, ⟨k, v, none⟩)] := by
        generalize hP : (splitNl c).filterMap
          (processedOf (mapSet (parseEnvContent c) k ⟨k, v, none⟩)) = P
        rw [hP] at hknotP
        rw [hset, List.filter_append]
        have h1 : (parseEnvContent c).filter
            (fun p => ! decide (p.1 ∈ P)) = [] := by
          apply filter_false_nil
          intro p hp
          have h2 := hcov p.1 (List.mem_map.mpr ⟨p, hp, rfl⟩)
          rw [hP] at h2
          simp [h2]
        rw [h1, List.nil_append, List.filter_cons]
        rw [if_pos (by simp [hknotP])]
        rfl
      refine ⟨(splitNl c).filterMap
          (emitLine (mapSet (parseEnvContent c) k ⟨k, v, none⟩)) ++ [k ++ '=' :: v],
        ?_, by simp, ?_, ?_, ?_⟩
      · rw [hA]
        show some (joinNl (_ ++ [kvLine k v]) ++ ['\n']) = _
        unfold kvLine
        rw [escapeValue_eq_self v hv]
      · intro l hl
        rcases List.mem_append.mp hl with h1 | h1
        · exact hEprops l h1
        · rcases List.mem_cons.mp h1 with h2 | h2
          · rw [h2]
            exact ⟨canonLineB_of_canonical k v hk hv,
              canonical_line_no_newline k v hk hv.2.2.2.1⟩
          · simp at h2
      · rw [List.filterMap_append]
        rw [List.filterMap_cons_some (parsedKV_canonical k v hk hv)]
        show ((_ ++ [(k, v)]).map Prod.fst).Nodup
        rw [List.map_append]
        apply nodup_append_single
        · rw [hEkeys, ← lineEntries_keys]
          exact hnd
        · intro hmem
          rw [hEkeys, ← lineEntries_keys] at hmem
          apply hkm
          rw [parse_eq_foldl_entries, foldl_entStep_keys]
          simp only [List.map_nil, List.nil_append]
          exact (mem_dedupNewKeys k _ []).mpr ⟨hmem, by simp⟩
      · exact ⟨k ++ '=' :: v, List.mem_append_right _ (List.mem_cons_self _ _),
          parsedKV_canonical k v hk hv⟩

theorem set_second (c1 k v : List Char) (hne : c1 ≠ [])
    (hc1 : ∀ line ∈ splitNl c1, CanonLineB line = true)
    (hnd1 : (((splitNl c1).filterMap parsedKV).map Prod.fst).Nodup)
    (hk : canonicalKey k) (hv : canonicalValue v)
    (hkline : ∃ line ∈ splitNl c1, parsedKV line = some (k, v)) :
    setCmd k v (some c1) = some (c1 ++ ['\n']) := by
  rw [setCmd_eq k v c1 hk hv]
  have hnd : ((lineEntries c1).map (fun t => t.1)).Nodup := by
    rw [lineEntries_keys]
    exact hnd1
  congr 1
  apply format_self _ _ hne
  · intro line hline
    rcases canonLineB_cases line (hc1 line hline) with hbl | ⟨j, w, hlv, hj, hw⟩
    · exact emitLine_blank _ line hbl
    · subst hlv
      by_cases hjk : j = k
      · subst hjk
        obtain ⟨line2, hl2, hp2⟩ := hkline
        have hpj : parsedKV (j ++ '=' :: w) = some (j, w) :=
          parsedKV_canonical j w hj hw
        have ht1 : ((j : List Char), w, j ++ '=' :: w) ∈ lineEntries c1 := by
          unfold lineEntries
          exact List.mem_filterMap.mpr ⟨_, hline, by rw [hpj]; rfl⟩
        have ht2 : ((j : List Char), v, line2) ∈ lineEntries c1 := by
          unfold lineEntries
          exact List.mem_filterMap.mpr ⟨line2, hl2, by rw [hp2]; rfl⟩
        have heq := lineEntries_unique c1 hnd _ _ ht1 ht2 rfl
        have hwv : w = v := by
          have h2 := (Prod.mk.injEq .. |>.mp heq).2
          exact (Prod.mk.injEq .. |>.mp h2).1
        subst hwv
        exact emitLine_canonical_self _ j w ⟨j, w, none⟩ hj hw
          (mapGet_set_self _ j _) rfl
      · have hp := parsedKV_canonical j w hj hw
        have hg0 := parse_get_of_nodup c1 hnd j w _ hline hp
        have hg : mapGet (mapSet (parseEnvContent c1) k ⟨k, v, none⟩) j
            = some ⟨j, w, some (j ++ '=' :: w)⟩ := by
          rw [mapGet_set_ne _ k _ j hjk]
          exact hg0
        exact emitLine_canonical_self _ j w _ hj hw hg rfl
  · intro p hp
    have hkmem : k ∈ (parseEnvContent c1).map Prod.fst := by
      obtain ⟨line2, hl2, hp2⟩ := hkline
      have hmem : ((k : List Char), v, line2) ∈ lineEntries c1 := by
        unfold lineEntries
        exact List.mem_filterMap.mpr ⟨line2, hl2, by rw [hp2]; rfl⟩
      rw [parse_eq_foldl_entries, foldl_entStep_keys]
      simp only [List.map_nil, List.nil_append]
      exact (mem_dedupNewKeys k _ []).mpr
        ⟨List.mem_map.mpr ⟨_, hmem, rfl⟩, by simp⟩
    have hkeys : p.1 ∈ (parseEnvContent c1).map Prod.fst := by
      have h1 : p.1 ∈ (mapSet (parseEnvContent c1) k ⟨k, v, none⟩).map Prod.fst :=
        List.mem_map.mpr ⟨p, hp, rfl⟩
      rw [mapSet_keys_has _ _ _ hkmem] at h1
      exact h1
    obtain ⟨t, htm, hte⟩ := List.mem_map.mp (key_mem_of_parse c1 p.1 hkeys)
    obtain ⟨line, hlm, hfl⟩ := List.mem_filterMap.mp htm
    cases hq : parsedKV line with
    | none =>
      rw [hq] at hfl
      simp at hfl
    | some kw =>
      rw [hq] at hfl
      simp only [Option.map_some'] at hfl
      have hkw : kw.1 = p.1 := by
        rw [← hte, ← Option.some_inj.mp hfl]
      obtain ⟨hdec, hkj, hvw⟩ :=
        canonical_decompose line kw.1 kw.2 (hc1 line hlm) (by rw [hq])
      have hg1 : (mapGet (mapSet (parseEnvContent c1) k ⟨k, v, none⟩)
          kw.1).isSome = true := by
        by_cases hjk : kw.1 = k
        · rw [hjk, mapGet_set_self]
          rfl
        · rw [mapGet_set_ne _ k _ kw.1 hjk]
          rw [parse_get_of_nodup c1 hnd kw.1 kw.2 line hlm (by rw [hq])]
          rfl
      obtain ⟨e1, hge⟩ := Option.isSome_iff_exists.mp hg1
      apply List.mem_filterMap.mpr
      refine ⟨line, hlm, ?_⟩
      rw [hdec, processedOf_canonical _ kw.1 kw.2 e1 hkj hvw hge, hkw]

/-! ## Claim C3 -/

/-- C3, counterexample to the claim as stated: applying `set(A, 1)` twice
starting from no file gives `A=1\n` after the first application but
`A=1\n\n` after the second — the second rewrite appends an extra
newline, so the cycle is not idempotent. -/
theorem set_twice_counterexample :
    setCmd "A".data "1".data none = some "A=1\n".data ∧
    setCmd "A".data "1".data (some "A=1\n".data) = some "A=1\n\n".data ∧
    "A=1\n\n".data ≠ "A=1\n".data := by
  refine ⟨by decide, by decide, by decide⟩

/-- C3, amended: starting from a file whose lines are blank, comments or
exactly `KEY=VALUE` with canonical keys and values and pairwise-distinct
keys, and setting a canonical key to a canonical value, the second
application of the same `set(k, v)` cycle produces the first
application's content with exactly one extra newline appended. -/
theorem set_twice_appends_newline (c k v : List Char)
    (hc : ∀ line ∈ splitNl c, CanonLineB line = true)
    (hnd : ((lineEntries c).map (fun t => t.1)).Nodup)
    (hk : canonicalKey k) (hv : canonicalValue v) :
    ∃ c1, setCmd k v (some c) = some c1 ∧
      setCmd k v (some c1) = some (c1 ++ ['\n']) := by
  obtain ⟨L1, h1, hLne, hcanon, hnodup, hkl⟩ := setCmd_first c k v hc hnd hk hv
  refine ⟨joinNl L1 ++ ['\n'], h1, ?_⟩
  have hnl : ∀ l ∈ L1 ++ [[]], '\n' ∉ l := by
    intro l hl
    rcases List.mem_append.mp hl with h2 | h2
    · exact (hcanon l h2).2
    · rcases List.mem_cons.mp h2 with h3 | h3
      · rw [h3]
        simp
      · simp at h3
  have hsplit : splitNl (joinNl L1 ++ ['\n']) = L1 ++ [[]] := by
    have hj : joinNl L1 ++ ['\n'] = joinNl (L1 ++ [[]]) := by
      rw [joinNl_append_single L1 [] hLne]
    rw [hj]
    exact splitNl_joinNl (L1 ++ [[]]) (by simp) hnl
  apply set_second (joinNl L1 ++ ['\n']) k v ?_ ?_ ?_ hk hv ?_
  · simp
  · rw [hsplit]
    intro line hline
    rcases List.mem_append.mp hline with h2 | h2
    · exact (hcanon line h2).1
    · rcases List.mem_cons.mp h2 with h3 | h3
      · rw [h3]
        exact canonLineB_nil
      · simp at h3
  · rw [hsplit, List.filterMap_append]
    have hblank : ([[]] : List (List Char)).filterMap parsedKV = [] := by
      rw [List.filterMap_cons_none (parsedKV_blank [] (Or.inl rfl))]
      rfl
    rw [hblank, List.append_nil]
    exact hnodup
  · rw [hsplit]
    obtain ⟨l, hl, hpl⟩ := hkl
    exact ⟨l, List.mem_append_left _ hl, hpl⟩

/-- Witness for C3 at the file `A=1\n`, key `B`, value `2`. -/
theorem set_twice_appends_newline_witness :
    (∀ line ∈ splitNl "A=1\n".data, CanonLineB line = true) ∧
    ((lineEntries "A=1\n".data).map (fun t => t.1)).Nodup ∧
    canonicalKey "B".data ∧ canonicalValue "2".data ∧
    ∃ c1, setCmd "B".data "2".data (some "A=1\n".data) = some c1 ∧
      setCmd "B".data "2".data (some c1) = some (c1 ++ ['\n']) :=
  ⟨by decide, by decide, by decide, by decide,
   set_twice_appends_newline "A=1\n".data "B".data "2".data
     (by decide) (by decide) (by decide) (by decide)⟩
